import Mathlib

/-!
Verification of the agent-zip-sandbox core against its specification.

This file shallowly embeds the data model and operations of the repository:

* `src/workspace.js`   — the ZIP-backed in-memory workspace (`ZipWorkspace`);
* `src/tools.js`       — the tools facade (`createWorkspaceTools`);
* `src/sandbox_runner.js` / `src/vfs_shims.js` — the guest capability object;
* `src/time_machine.js` — the history engine.

Modelling conventions:

* A canonical absolute POSIX path `/a/b/c` is modelled as its list of
  segments `["a", "b", "c"]`; the root `/` is `[]`.  All theorems quantify
  over canonical paths, on which `normPath` (from the repository's
  `src/path_utils.js`, whose callers are all in the tree) is the identity,
  so the `normPath(p)` calls that begin every source operation are
  modelled as the identity.
* File contents are byte sequences, modelled as `List Nat` with each
  element a byte value.
* JavaScript `Map` / `Set` state is modelled as association lists / lists;
  all statements about workspace contents are extensional (via lookup and
  membership), matching `Map.get` / `Set.has`.
* Fallible operations return `Except FsErr`; operations that both mutate
  and may throw after a partial mutation return the mutated state
  alongside the `Except`, mirroring the source's throw points.
-/

deriving instance DecidableEq for Except

/-- Error kinds raised by the workspace and tools, keyed by the `code`
property the source attaches to thrown `Error`s. -/
inductive FsErr where
  | enoent | enotdir | eexist | eperm | enotempty | eacces | efbig | einval
  deriving DecidableEq, Repr

/-- A canonical absolute path, as its list of segments (root = `[]`). -/
abbrev Pth := List String

/-- File contents as a byte sequence. -/
abbrev Bytes := List Nat

/-- Modelled from the spec: `src/path_utils.js` is referenced by every
source module but is not in the source tree.  Per §4.1 of the spec,
`isReserved(p) = p == "/.time" || p startsWith "/.time/"`; on canonical
segment paths this is exactly "the first segment is `.time`". -/
def isTimePath (p : Pth) : Bool := p.head? = some ".time"

/-- Modelled from the spec: the reserved history directory `/.time`
(`TIME_DIR` in `src/path_utils.js`). -/
def timeDir : Pth := [".time"]

/-- All ancestors of a path including the root and the path itself
(the cumulative prefixes built by `_ensureDir`'s split/rejoin loop in
`src/workspace.js` lines 22-31). -/
def pathPrefixes (p : Pth) : List Pth :=
  (List.range (p.length + 1)).map (fun n => p.take n)

/-- `dirname` on canonical segment paths (POSIX `dirname` drops the final
segment; `dirname "/" = "/"`). -/
def segDirname (p : Pth) : Pth := p.dropLast

/-- `basename` on canonical segment paths (`basename "/" = "/"`, which the
source never feeds back as a child name because it skips the root). -/
def segBasename (p : Pth) : String := p.getLast?.getD "/"

/-- `a` is a strict ancestor of `b`: the source tests
`b.startsWith(a + "/")` on canonical path strings, which on segments is
"`a` is a proper prefix of `b`". -/
def strictUnder (a b : Pth) : Bool := a.isPrefixOf b && a ≠ b

/-- The rendered length of the canonical path string (`"/a/b".length`),
used by `applyEntry`'s directory ordering in `src/time_machine.js`. -/
def pathStrLen (p : Pth) : Nat :=
  match p with
  | [] => 1
  | segs => (segs.map (fun s => s.length + 1)).sum

/-! ## Workspace (`src/workspace.js`, `ZipWorkspace`) -/

/-- The workspace state: `files: Map<path, Uint8Array>` and
`dirs: Set<path>` (constructor initializes `dirs` with `"/"`). -/
structure Ws where
  files : List (Pth × Bytes)
  dirs : List Pth
  deriving DecidableEq, Repr

/-- The empty workspace (`new ZipWorkspace()` with no buffer). -/
def Ws.empty : Ws := ⟨[], [[]]⟩

/-- `this.files.get(p)` as extensional lookup. -/
def Ws.lookupFile (w : Ws) (p : Pth) : Option Bytes :=
  (w.files.find? (fun kv => kv.1 = p)).map (fun kv => kv.2)

/-- `this.files.has(p)`. -/
def Ws.hasFile (w : Ws) (p : Pth) : Bool := (w.lookupFile p).isSome

/-- `this.dirs.has(p)`. -/
def Ws.hasDir (w : Ws) (p : Pth) : Bool := w.dirs.contains p

/-- `Map.set`: replace or insert the binding for `p`. -/
def Ws.setFile (w : Ws) (p : Pth) (v : Bytes) : Ws :=
  { w with files := (p, v) :: w.files.filter (fun kv => ¬ kv.1 = p) }

/-- `Map.delete`. -/
def Ws.removeFile (w : Ws) (p : Pth) : Ws :=
  { w with files := w.files.filter (fun kv => ¬ kv.1 = p) }

/-- Insert into a sorted list: together with `sortBy` below this models
`Array.prototype.sort(cmp)` output order (ascending by `cmp`). -/
def insertSorted (cmp : α → α → Bool) (x : α) : List α → List α
  | [] => [x]
  | y :: ys => if cmp x y then x :: y :: ys else y :: insertSorted cmp x ys

/-- Sort by a comparator (insertion sort; the source's `.sort()` is
observed only through its sorted output). -/
def sortBy (cmp : α → α → Bool) (l : List α) : List α :=
  l.foldr (insertSorted cmp) []

/-- Lexicographic order on character lists: the code-unit string order
`Array.prototype.sort()` uses (all paths and names in scope are BMP
text, where code-point and code-unit order agree). -/
def charListLe : List Char → List Char → Bool
  | [], _ => true
  | _ :: _, [] => false
  | a :: as, b :: bs => if a = b then charListLe as bs else decide (a < b)

/-- De-duplicate keeping first occurrences, modelling collection into a
JS `Set` (membership and ordering of the survivors match insertion
order). -/
def dedupFirst [DecidableEq α] : List α → List α
  | [] => []
  | x :: xs => x :: (dedupFirst xs).filter (fun y => ¬ y = x)

/-- `Set.add`. -/
def addDir (ds : List Pth) (p : Pth) : List Pth :=
  if ds.contains p then ds else p :: ds

/-- `_ensureDir` (workspace.js 22-31): walk the segments from the root,
adding every cumulative prefix (including `"/"` and the path itself) to
the directory set. -/
def Ws.ensureDir (w : Ws) (d : Pth) : Ws :=
  { w with dirs := (pathPrefixes d).foldl addDir w.dirs }

/-- `stat(p)` (workspace.js 57-66): files take precedence over dirs. -/
def Ws.stat (w : Ws) (p : Pth) : Option (Bool × Nat) :=
  match w.lookupFile p with
  | some bytes => some (true, bytes.length)   -- { type: "file", size }
  | none => if w.hasDir p then some (false, 0) else none

/-- `readFile(p)` (workspace.js 85-91), returning raw bytes. -/
def Ws.readFile (w : Ws) (p : Pth) : Except FsErr Bytes :=
  match w.lookupFile p with
  | some bytes => .ok bytes
  | none => .error .enoent

/-- `writeFile(p, data, enc, overwrite)` (workspace.js 93-109).  The
ancestor directories are materialized *before* the `overwrite` check, so
the mutated state is returned even on `EEXIST`, as in the source. -/
def Ws.writeFile (w : Ws) (p : Pth) (data : Bytes) (overwrite : Bool) :
    Except FsErr Unit × Ws :=
  let w1 := w.ensureDir (segDirname p)
  if ¬ overwrite ∧ w1.hasFile p then (.error .eexist, w1)
  else (.ok (), w1.setFile p data)

/-- `mkdir(p, recursive)` (workspace.js 111-120). -/
def Ws.mkdir (w : Ws) (p : Pth) (recursive : Bool) :
    Except FsErr Unit × Ws :=
  if ¬ recursive then
    if ¬ w.hasDir (segDirname p) then (.error .enoent, w)
    else (.ok (), { w with dirs := addDir w.dirs p })
  else (.ok (), w.ensureDir p)

/-- `delete(p)` (workspace.js 122-135). -/
def Ws.del (w : Ws) (p : Pth) : Except FsErr Unit × Ws :=
  if w.hasFile p then (.ok (), w.removeFile p)
  else if w.hasDir p then
    if p = [] then (.error .eperm, w)
    else if w.files.any (fun kv => strictUnder p kv.1) then (.error .enotempty, w)
    else if w.dirs.any (fun d => ¬ d = p ∧ strictUnder p d) then (.error .enotempty, w)
    else (.ok (), { w with dirs := w.dirs.filter (fun d => ¬ d = p) })
  else (.error .enoent, w)

/-- `list(p)` (workspace.js 68-83): immediate-children names from both
the dir set (skipping the root) and the file map, de-duplicated and
sorted. -/
def Ws.list (w : Ws) (p : Pth) : Except FsErr (List String) :=
  if ¬ w.hasDir p then .error .enotdir
  else
    let fromDirs := (w.dirs.filter
      (fun d => ¬ d = [] ∧ segDirname d = p)).map segBasename
    let fromFiles := (w.files.filter
      (fun kv => segDirname kv.1 = p)).map (fun kv => segBasename kv.1)
    .ok (sortBy (fun a b => charListLe a.data b.data)
      (dedupFirst (fromDirs ++ fromFiles)))

/-- `importZip(buf)` (workspace.js 33-44): clear all state, then for each
archive member (already path-normalized here) materialize its parent
directories and store the bytes. -/
def Ws.importZip (_w : Ws) (members : List (Pth × Bytes)) : Ws :=
  members.foldl
    (fun acc m => (acc.ensureDir (segDirname m.1)).setFile m.1 m.2)
    ⟨[], [[]]⟩

/-! ## Sandbox capability object (`makeVfs`, `src/sandbox_runner.js` 18-27)

`makeVfs` hands the guest an object whose every method forwards the path
*unchanged* to the corresponding `ZipWorkspace` method; the `fs` /
`fs/promises` shims in `src/vfs_shims.js` in turn forward every call to
this capability object verbatim.  No reserved-namespace check appears on
this route. -/

/-- `makeVfs(ws).readFile` — `(p, enc) => workspace.readFile(p, enc)`. -/
def vfsReadFile (w : Ws) (p : Pth) : Except FsErr Bytes := w.readFile p

/-- `makeVfs(ws).writeFile` — `(p, data, enc) => workspace.writeFile(p, data, enc, true)`. -/
def vfsWriteFile (w : Ws) (p : Pth) (data : Bytes) : Except FsErr Unit × Ws :=
  w.writeFile p data true

/-- `makeVfs(ws).stat` — `(p) => workspace.stat(p)`. -/
def vfsStat (w : Ws) (p : Pth) : Option (Bool × Nat) := w.stat p

/-- `makeVfs(ws).readdir` — `(p) => workspace.list(p)`. -/
def vfsReaddir (w : Ws) (p : Pth) : Except FsErr (List String) := w.list p

/-- `makeVfs(ws).mkdir` — `(p, recursive) => workspace.mkdir(p, recursive)`. -/
def vfsMkdir (w : Ws) (p : Pth) (recursive : Bool) : Except FsErr Unit × Ws :=
  w.mkdir p recursive

/-- `makeVfs(ws).deletePath` — `(p) => workspace.delete(p)`. -/
def vfsDeletePath (w : Ws) (p : Pth) : Except FsErr Unit × Ws := w.del p

/-! ## Text utilities shared by the tools facade

The tools read file bytes and decode them as UTF-8
(`Buffer.toString("utf8")` / `TextDecoder("utf-8", { fatal: false })`).
The decoder below models that decoding: it is exact on well-formed UTF-8
and on ASCII, and emits U+FFFD for invalid sequences (consuming the lead
byte), which is the behavior the binary-detection heuristic depends on. -/

/-- The replacement character U+FFFD. -/
def replChar : Char := Char.ofNat 0xfffd

/-- Decode one UTF-8 sequence starting with lead byte `b`, returning the
character and how many *continuation* bytes of `rest` were consumed. -/
def utf8Step (b : Nat) (rest : Bytes) : Char × Nat :=
  let cont := fun (x : Nat) => 0x80 ≤ x ∧ x ≤ 0xbf
  if b < 0x80 then (Char.ofNat b, 0)
  else if 0xc2 ≤ b ∧ b ≤ 0xdf then
    match rest with
    | b2 :: _ =>
      if cont b2 then (Char.ofNat ((b - 0xc0) * 64 + (b2 - 0x80)), 1)
      else (replChar, 0)
    | [] => (replChar, 0)
  else if 0xe0 ≤ b ∧ b ≤ 0xef then
    match rest with
    | b2 :: b3 :: _ =>
      let lo2 := if b = 0xe0 then 0xa0 else 0x80
      let hi2 := if b = 0xed then 0x9f else 0xbf
      if (lo2 ≤ b2 ∧ b2 ≤ hi2) ∧ cont b3 then
        (Char.ofNat ((b - 0xe0) * 4096 + (b2 - 0x80) * 64 + (b3 - 0x80)), 2)
      else (replChar, 0)
    | _ => (replChar, 0)
  else if 0xf0 ≤ b ∧ b ≤ 0xf4 then
    match rest with
    | b2 :: b3 :: b4 :: _ =>
      let lo2 := if b = 0xf0 then 0x90 else 0x80
      let hi2 := if b = 0xf4 then 0x8f else 0xbf
      if (lo2 ≤ b2 ∧ b2 ≤ hi2) ∧ cont b3 ∧ cont b4 then
        (Char.ofNat ((b - 0xf0) * 262144 + (b2 - 0x80) * 4096 +
          (b3 - 0x80) * 64 + (b4 - 0x80)), 3)
      else (replChar, 0)
    | _ => (replChar, 0)
  else (replChar, 0)

/-- UTF-8 decoding, fuelled so the recursion is structural (each step
consumes at least one byte, so `bs.length` fuel always suffices). -/
def decodeUtf8Go : Nat → Bytes → List Char
  | 0, _ => []
  | _, [] => []
  | fuel + 1, b :: rest =>
    let s := utf8Step b rest
    s.1 :: decodeUtf8Go fuel (rest.drop s.2)

/-- UTF-8 decoding with replacement characters. -/
def decodeUtf8 (bs : Bytes) : List Char := decodeUtf8Go bs.length bs

/-- UTF-8 encoding of one character. -/
def encodeChar (c : Char) : Bytes :=
  let n := c.toNat
  if n < 0x80 then [n]
  else if n < 0x800 then [0xc0 + n / 64, 0x80 + n % 64]
  else if n < 0x10000 then
    [0xe0 + n / 4096, 0x80 + n / 64 % 64, 0x80 + n % 64]
  else
    [0xf0 + n / 262144, 0x80 + n / 4096 % 64, 0x80 + n / 64 % 64, 0x80 + n % 64]

/-- UTF-8 encoding of a text. -/
def encodeUtf8 (cs : List Char) : Bytes := (cs.map encodeChar).flatten

/-- `text.split(/\r?\n/)`: split at every `\n`, a `\r` immediately before
the `\n` belonging to the separator.  `cur` holds the current line
reversed. -/
def splitGo : List Char → List Char → List (List Char)
  | [], cur => [cur.reverse]
  | c :: rest, cur =>
    if c = '\n' then
      (if cur.head? = some '\r' then cur.tail.reverse else cur.reverse)
        :: splitGo rest []
    else splitGo rest (c :: cur)

/-- `text.split(/\r?\n/)` on a whole text. -/
def splitLinesCRLF (cs : List Char) : List (List Char) := splitGo cs []

/-- `lines.join("\n")`. -/
def joinLF (ls : List (List Char)) : List Char := (ls.intersperse ['\n']).flatten

/-- `clipLine` (tools.js 3-8): strip one trailing `\r`, then clip to
`max(20, maxLineLength || 240)` characters with an ellipsis.  A zero
`maxLineLength` models the JS falsy fallback to 240. -/
def clipLine (line : List Char) (maxLineLength : Nat) : List Char :=
  let s := if line.getLast? = some '\r' then line.dropLast else line
  let maxLen := max 20 (if maxLineLength = 0 then 240 else maxLineLength)
  if s.length ≤ maxLen then s
  else s.take (maxLen - 1) ++ ['…']

/-- `hasUppercase` (tools.js 10-12): `/[A-Z]/.test(s)`. -/
def hasUppercase (cs : List Char) : Bool := cs.any (fun c => 'A' ≤ c ∧ c ≤ 'Z')

/-- ASCII lowercase, modelling `String.prototype.toLowerCase` on the
ASCII range (the only range the theorems below instantiate). -/
def lowerChar (c : Char) : Char :=
  if 'A' ≤ c ∧ c ≤ 'Z' then Char.ofNat (c.toNat + 32) else c

/-- `hay.indexOf(needle) !== -1`: contiguous-substring containment. -/
def hasSub (needle hay : List Char) : Bool :=
  needle.isPrefixOf hay ||
    match hay with
    | [] => false
    | _ :: t => hasSub needle t

/-- `matchesLine` (tools.js 33-36). -/
def matchesLine (line q : List Char) (caseSensitive : Bool) : Bool :=
  if caseSensitive then hasSub q line
  else hasSub (q.map lowerChar) (line.map lowerChar)

/-- `shouldTreatAsText` (tools.js 14-31): binary iff the first 8 KiB
holds a NUL byte, or a sufficiently long decoded sample has more than 5%
replacement characters.  The float comparison `repl / len <= 0.05` is
exact as `20 * repl ≤ len` for every sample length `len ≤ 8192` (the
nearest double to `repl / len` and to `0.05` compare identically there).  -/
def shouldTreatAsText (bytes : Bytes) : Bool :=
  if bytes.length = 0 then true
  else
    let sample := bytes.take 8192
    if sample.any (fun b => b = 0) then false
    else
      let decoded := decodeUtf8 sample
      if decoded.length < 32 then true
      else 20 * (decoded.filter (fun c => c = replChar)).length ≤ decoded.length

/-! ## Tools facade (`src/tools.js`, `createWorkspaceTools`)

Text arguments and results are `List Char`; byte contents pass through
`decodeUtf8` / `encodeUtf8` exactly where the source performs
`Buffer.toString("utf8")` / `Buffer.from(text, "utf8")`. -/

/-- `assertUserPath` (tools.js 43-49): reserved-namespace gate; `normPath`
is the identity on the canonical paths quantified over. -/
def assertUserPath (p : Pth) : Except FsErr Pth :=
  if isTimePath p then .error .eacces else .ok p

/-- One numbered line returned by `fs_read_lines` / `fs_search`. -/
structure LineEntry where
  lineNumber : Nat
  content : List Char
  deriving DecidableEq, Repr

/-- `fs_read` result shape. -/
structure ReadOut where
  path : Pth
  content : Bytes
  deriving DecidableEq, Repr

/-- `fs_read` (tools.js 52-64): raw bytes; the text/base64 rendering of
the same bytes is presentation only. -/
def fsRead (w : Ws) (p : Pth) (maxBytes : Nat) : Except FsErr ReadOut := do
  let p ← assertUserPath p
  match w.stat p with
  | some (true, size) =>
    if size > maxBytes then .error .efbig
    else do
      let bytes ← w.readFile p
      .ok ⟨p, bytes⟩
  | _ => .error .enoent

/-- `fs_read_lines` result shape. -/
structure ReadLinesOut where
  path : Pth
  startLine : Nat
  endLine : Nat
  totalLines : Nat
  lines : List LineEntry
  deriving DecidableEq, Repr

/-- `fs_read_lines` (tools.js 66-88).  `max 1 startLine` models
`Math.max(1, Number(startLine) || 1)` and `max s endLine` models
`Math.max(s, Number(endLine) || s)` on natural-number arguments. -/
def fsReadLines (w : Ws) (p : Pth) (startLine endLine maxBytes : Nat) :
    Except FsErr ReadLinesOut := do
  let p ← assertUserPath p
  match w.stat p with
  | some (true, size) =>
    if size > maxBytes then .error .efbig
    else do
      let bytes ← w.readFile p
      let lines := splitLinesCRLF (decodeUtf8 bytes)
      let totalLines := lines.length
      let s := max 1 startLine
      let e := max s endLine
      let endL := min totalLines e
      let slice := (lines.drop (s - 1)).take (endL - (s - 1))
      .ok ⟨p, s, endL, totalLines,
        slice.enum.map (fun ci => ⟨s + ci.1, ci.2⟩)⟩
  | _ => .error .enoent

/-- `fs_write` (tools.js 262-271): content already converted to bytes
(`Buffer.from(content, enc)`). -/
def fsWrite (w : Ws) (p : Pth) (content : Bytes) (overwrite : Bool) :
    Except FsErr Pth × Ws :=
  match assertUserPath p with
  | .error e => (.error e, w)
  | .ok p =>
    let r := w.writeFile p content overwrite
    match r.1 with
    | .error e => (.error e, r.2)
    | .ok _ => (.ok p, r.2)

/-- `fs_list` result shape. -/
structure ListOut where
  path : Pth
  entries : List String
  deriving DecidableEq, Repr

/-- `fs_list` (tools.js 273-278): listing of the root elides `.time`. -/
def fsList (w : Ws) (p : Pth) : Except FsErr ListOut := do
  let p ← assertUserPath p
  let entries ← w.list p
  let entries := if p = [] then entries.filter (fun e => ¬ e = ".time") else entries
  .ok ⟨p, entries⟩

/-- `fs_stat` result shape (`type` rendered as `isFile`). -/
structure StatOut where
  path : Pth
  isFile : Bool
  size : Nat
  deriving DecidableEq, Repr

/-- `fs_stat` (tools.js 280-285). -/
def fsStat (w : Ws) (p : Pth) : Except FsErr StatOut := do
  let p ← assertUserPath p
  match w.stat p with
  | some (t, size) => .ok ⟨p, t, size⟩
  | none => .error .enoent

/-- `fs_mkdir` (tools.js 287-291). -/
def fsMkdir (w : Ws) (p : Pth) (recursive : Bool) : Except FsErr Pth × Ws :=
  match assertUserPath p with
  | .error e => (.error e, w)
  | .ok p =>
    let r := w.mkdir p recursive
    match r.1 with
    | .error e => (.error e, r.2)
    | .ok _ => (.ok p, r.2)

/-- `fs_delete` (tools.js 293-297). -/
def fsDelete (w : Ws) (p : Pth) : Except FsErr Pth × Ws :=
  match assertUserPath p with
  | .error e => (.error e, w)
  | .ok p =>
    let r := w.del p
    match r.1 with
    | .error e => (.error e, r.2)
    | .ok _ => (.ok p, r.2)

/-- The pure text transformation at the heart of `fs_patch_lines`
(tools.js 306-314): split on CRLF-or-LF, keep lines before `s` and after
`e` (1-based inclusive, `s` clamped to at least 1 and `e` to at least
`s`), splice the split replacement between them, and rejoin with `"\n"`. -/
def patchLinesText (text : List Char) (startLine endLine : Nat)
    (replacement : List Char) : List Char :=
  let lines := splitLinesCRLF text
  let s := max 1 startLine
  let e := max s endLine
  let before := lines.take (s - 1)
  let after := lines.drop e
  let replLines := splitLinesCRLF replacement
  joinLF (before ++ replLines ++ after)

/-- `fs_patch_lines` (tools.js 303-317). -/
def fsPatchLines (w : Ws) (p : Pth) (startLine endLine : Nat)
    (replacement : List Char) : Except FsErr Pth × Ws :=
  match assertUserPath p with
  | .error e => (.error e, w)
  | .ok p =>
    match w.readFile p with
    | .error e => (.error e, w)
    | .ok bytes =>
      let out := patchLinesText (decodeUtf8 bytes) startLine endLine replacement
      let r := w.writeFile p (encodeUtf8 out) true
      match r.1 with
      | .error e => (.error e, r.2)
      | .ok _ => (.ok p, r.2)

/-! ## Results: reserved namespace at the capability boundary (C1) -/

/-- A workspace as the sandbox receives it: the request ZIP carries the
whole file mapping, including the Time Machine state under `/.time`
(`exportZipBuffer` emits every file entry; nothing strips the reserved
namespace before `runSandbox`). -/
def c1Ws : Ws := (Ws.empty.writeFile [".time", "state.json"] [123] true).2

/-- C1: the claim asserts the guest capability object presents `/.time`
as nonexistent on reads and denies every mutation.  The code does
neither: `makeVfs` (sandbox_runner.js 18-27) forwards every call to the
workspace unchecked, and the fs shims forward to it verbatim.  On a
workspace holding `/.time/state.json`: `stat` reports the reserved
directory and file as existing, `readFile` returns the reserved bytes,
and `writeFile` under `/.time` succeeds and lands in the file map. -/
theorem c1_vfs_exposes_reserved_namespace :
    vfsStat c1Ws [".time"] = some (false, 0) ∧
    vfsStat c1Ws [".time", "state.json"] = some (true, 1) ∧
    vfsReadFile c1Ws [".time", "state.json"] = .ok [123] ∧
    (vfsWriteFile c1Ws [".time", "x"] [121]).1 = .ok () ∧
    ((vfsWriteFile c1Ws [".time", "x"] [121]).2.lookupFile [".time", "x"]
      = some [121]) := by
  decide

/-! ## Results: file/directory overlap (C7) -/

/-- `mkdir("/d")` followed by `writeFile("/d", ...)`: `writeFile`
(workspace.js 93-109) never consults the directory set, so the write
lands while `/d` stays a directory. -/
def c7Ws : Ws := ((Ws.empty.mkdir ["d"] true).2.writeFile ["d"] [120] true).2

/-- C7: the claim asserts no path is both a file and a directory, and
that `writeFile`/`mkdir` cannot create such a state.  The code has no
guard in either direction; after `mkdir /d; writeFile /d` the path `/d`
is simultaneously a key of the file map and a member of the directory
set. -/
theorem c7_write_into_dir_overlaps :
    (Ws.empty.mkdir ["d"] true).1 = .ok () ∧
    (((Ws.empty.mkdir ["d"] true).2.writeFile ["d"] [120] true).1 = .ok ()) ∧
    c7Ws.hasFile ["d"] = true ∧ c7Ws.hasDir ["d"] = true := by
  decide

/-! ## Results: ancestor-closure invariant (C6) -/

/-- Workspace states reachable by any sequence of the mutating workspace
operations, starting from the empty workspace; each constructor keeps the
state a source operation leaves behind whether it returned or threw. -/
inductive WsReach : Ws → Prop
  | empty : WsReach Ws.empty
  | imp (w : Ws) (members : List (Pth × Bytes)) :
      WsReach w → WsReach (w.importZip members)
  | write (w : Ws) (p : Pth) (data : Bytes) (ov : Bool) :
      WsReach w → WsReach (w.writeFile p data ov).2
  | mk (w : Ws) (p : Pth) (r : Bool) :
      WsReach w → WsReach (w.mkdir p r).2
  | del (w : Ws) (p : Pth) :
      WsReach w → WsReach (w.del p).2

/-- The C6 invariant: the root is a directory and every proper prefix of
every file path is a directory. -/
def wsClosed (w : Ws) : Prop :=
  [] ∈ w.dirs ∧ ∀ kv ∈ w.files, ∀ n < kv.1.length, kv.1.take n ∈ w.dirs

theorem mem_addDir {ds : List Pth} {p q : Pth} :
    q ∈ addDir ds p ↔ q ∈ ds ∨ q = p := by
  unfold addDir
  split
  · next h =>
    rw [List.elem_iff] at h
    constructor
    · exact Or.inl
    · rintro (hq | rfl)
      · exact hq
      · exact h
  · simp [or_comm]

theorem mem_foldl_addDir {l : List Pth} {ds : List Pth} {q : Pth} :
    q ∈ l.foldl addDir ds ↔ q ∈ ds ∨ q ∈ l := by
  induction l generalizing ds with
  | nil => simp
  | cons x xs ih =>
    rw [List.foldl_cons, ih, mem_addDir, List.mem_cons, or_assoc]

theorem mem_ensureDir {w : Ws} {d q : Pth} :
    q ∈ (w.ensureDir d).dirs ↔ q ∈ w.dirs ∨ q ∈ pathPrefixes d :=
  mem_foldl_addDir

theorem take_mem_pathPrefixes {p : Pth} {n : Nat} (h : n ≤ p.length) :
    p.take n ∈ pathPrefixes p := by
  unfold pathPrefixes
  exact List.mem_map.2 ⟨n, List.mem_range.2 (Nat.lt_succ_of_le h), rfl⟩

theorem ensureDir_files (w : Ws) (d : Pth) : (w.ensureDir d).files = w.files :=
  rfl

/-- The write step shared by `writeFile` and `importZip`: materialize the
parent chain, then bind the file. -/
theorem wsClosed_writeStep {w : Ws} (p : Pth) (v : Bytes)
    (h : wsClosed w) : wsClosed ((w.ensureDir (segDirname p)).setFile p v) := by
  obtain ⟨hroot, hfiles⟩ := h
  constructor
  · exact mem_ensureDir.2 (Or.inl hroot)
  · intro kv hkv n hn
    rw [Ws.setFile] at hkv
    simp only [List.mem_cons, List.mem_filter] at hkv
    rcases hkv with rfl | ⟨hkv, _⟩
    · -- the new binding: its proper prefixes are prefixes of `dropLast p`
      refine mem_ensureDir.2 (Or.inr ?_)
      simp only at hn ⊢
      have hlen : n ≤ (segDirname p).length := by
        simp only [segDirname, List.length_dropLast]
        omega
      have heq : p.take n = (segDirname p).take n := by
        simp only [segDirname, List.dropLast_eq_take, List.take_take]
        congr 1
        omega
      rw [heq]
      exact take_mem_pathPrefixes hlen
    · exact mem_ensureDir.2 (Or.inl (hfiles kv hkv n hn))

theorem wsClosed_writeFile {w : Ws} (p : Pth) (v : Bytes) (ov : Bool)
    (h : wsClosed w) : wsClosed (w.writeFile p v ov).2 := by
  rw [Ws.writeFile]
  split
  · -- EEXIST: state is the `ensureDir` expansion only
    obtain ⟨hroot, hfiles⟩ := h
    exact ⟨mem_ensureDir.2 (Or.inl hroot),
      fun kv hkv n hn => mem_ensureDir.2 (Or.inl (hfiles kv hkv n hn))⟩
  · exact wsClosed_writeStep p v h

theorem wsClosed_mkdir {w : Ws} (p : Pth) (r : Bool)
    (h : wsClosed w) : wsClosed (w.mkdir p r).2 := by
  obtain ⟨hroot, hfiles⟩ := h
  rw [Ws.mkdir]
  split
  · split
    · exact ⟨hroot, hfiles⟩
    · exact ⟨mem_addDir.2 (Or.inl hroot),
        fun kv hkv n hn => mem_addDir.2 (Or.inl (hfiles kv hkv n hn))⟩
  · exact ⟨mem_ensureDir.2 (Or.inl hroot),
      fun kv hkv n hn => mem_ensureDir.2 (Or.inl (hfiles kv hkv n hn))⟩

theorem wsClosed_del {w : Ws} (p : Pth) (h : wsClosed w) :
    wsClosed (w.del p).2 := by
  obtain ⟨hroot, hfiles⟩ := h
  rw [Ws.del]
  split
  · -- file removed: directory set untouched, files shrink
    refine ⟨hroot, fun kv hkv n hn => ?_⟩
    rw [Ws.removeFile] at hkv
    simp only [List.mem_filter] at hkv
    exact hfiles kv hkv.1 n hn
  · split
    · split
      · exact ⟨hroot, hfiles⟩
      · split
        · exact ⟨hroot, hfiles⟩
        · split
          · exact ⟨hroot, hfiles⟩
          · -- the empty directory `p` is removed
            next hdir hne hfany _ =>
            have hfany' : ∀ kv ∈ w.files, strictUnder p kv.1 = false := by
              intro kv hkv
              by_contra hc
              exact hfany (List.any_eq_true.2 ⟨kv, hkv, by
                revert hc
                cases strictUnder p kv.1 <;> simp⟩)
            constructor
            · refine List.mem_filter.2 ⟨hroot, ?_⟩
              simp only [Bool.not_eq_true', decide_eq_false_iff_not, decide_not]
              exact fun hcontra => hne hcontra.symm
            · intro kv hkv n hn
              refine List.mem_filter.2 ⟨hfiles kv hkv n hn, ?_⟩
              simp only [Bool.not_eq_true', decide_eq_false_iff_not, decide_not]
              intro hEq
              have hpre : strictUnder p kv.1 = true := by
                rw [strictUnder, ← hEq]
                have h1 : (kv.1.take n).isPrefixOf kv.1 = true := by
                  rw [List.isPrefixOf_iff_prefix]
                  exact List.take_prefix n kv.1
                have h2 : ¬ kv.1.take n = kv.1 := by
                  intro hx
                  have := congrArg List.length hx
                  simp only [List.length_take] at this
                  omega
                simp [h1, h2]
              rw [hfany' kv hkv] at hpre
              exact Bool.false_ne_true hpre
    · exact ⟨hroot, hfiles⟩

theorem wsClosed_importZip (w : Ws) (members : List (Pth × Bytes)) :
    wsClosed (w.importZip members) := by
  rw [Ws.importZip]
  have base : wsClosed (⟨[], [[]]⟩ : Ws) := by
    refine ⟨by simp, ?_⟩
    intro kv hkv
    simp at hkv
  have gen : ∀ (ms : List (Pth × Bytes)) (acc : Ws), wsClosed acc →
      wsClosed (ms.foldl
        (fun acc m => (acc.ensureDir (segDirname m.1)).setFile m.1 m.2) acc) := by
    intro ms
    induction ms with
    | nil => exact fun acc h => h
    | cons m tail ih => exact fun acc h => ih _ (wsClosed_writeStep m.1 m.2 h)
  exact gen members _ base

/-- C6: after any sequence of workspace operations (`writeFile`, `mkdir`,
`delete`, `importZip`), every proper ancestor of every file path is in
the directory set and the root is always a member. -/
theorem c6_ancestors_closed (w : Ws) (h : WsReach w) :
    [] ∈ w.dirs ∧ ∀ kv ∈ w.files, ∀ n < kv.1.length, kv.1.take n ∈ w.dirs := by
  induction h with
  | empty => exact ⟨by simp [Ws.empty], by intro kv hkv; simp [Ws.empty] at hkv⟩
  | imp w members _ _ => exact wsClosed_importZip w members
  | write w p data ov _ ih => exact wsClosed_writeFile p data ov ih
  | mk w p r _ ih => exact wsClosed_mkdir p r ih
  | del w p _ ih => exact wsClosed_del p ih

/-- Witness for C6 at a concrete reachable state: after writing
`/a/b/c.txt` into the empty workspace, `/`, `/a` and `/a/b` are all
directories. -/
theorem c6_ancestors_closed_witness :
    [] ∈ (Ws.empty.writeFile ["a", "b", "c.txt"] [1, 2] true).2.dirs ∧
    ∀ kv ∈ (Ws.empty.writeFile ["a", "b", "c.txt"] [1, 2] true).2.files,
      ∀ n < kv.1.length,
        kv.1.take n ∈ (Ws.empty.writeFile ["a", "b", "c.txt"] [1, 2] true).2.dirs :=
  c6_ancestors_closed _ (WsReach.write _ _ _ _ WsReach.empty)

/-! ## `fs_search` (tools.js 95-260) -/

/-- One search result (tools.js 162-168). -/
structure SearchResult where
  path : Pth
  matchLine : Nat
  contextStartLine : Nat
  contextEndLine : Nat
  lines : List LineEntry
  deriving DecidableEq, Repr

/-- An in-flight match context (tools.js 192). -/
structure Pending where
  matchLine : Nat
  remainingAfter : Nat
  lines : List LineEntry
  deriving DecidableEq, Repr

/-- The `fs_search` return object (tools.js 248-259). -/
structure SearchOut where
  query : List Char
  pathRoot : Pth
  caseSensitive : Bool
  maxResults : Nat
  contextLines : Nat
  results : List SearchResult
  truncated : Bool
  scannedFiles : Nat
  matchedFiles : Nat
  skippedBinaryFiles : Nat
  deriving DecidableEq, Repr

/-- Completed pending context → result record (tools.js 162-167). -/
def mkResult (p : Pth) (d : Pending) : SearchResult :=
  ⟨p, d.matchLine,
    ((d.lines.head?).map (fun e => e.lineNumber)).getD d.matchLine,
    ((d.lines.getLast?).map (fun e => e.lineNumber)).getD d.matchLine,
    d.lines⟩

/-- `flushReady`'s splice loop (tools.js 158-174), walking the pending
list from its last index down; the input list here is reversed so the
head is the last pending.  Returns the grown results, the surviving
pendings (still reversed), and whether the result cap was hit. -/
def flushRev (maxRes : Nat) (p : Pth) :
    List SearchResult → List Pending →
    List SearchResult × List Pending × Bool
  | results, [] => (results, [], false)
  | results, r :: restRev =>
    if r.remainingAfter = 0 then
      let results' := results ++ [mkResult p r]
      if maxRes ≤ results'.length then (results', restRev, true)
      else
        let t := flushRev maxRes p results' restRev
        (t.1, t.2.1, t.2.2)
    else
      let t := flushRev maxRes p results restRev
      (t.1, r :: t.2.1, t.2.2)

/-- `flushReady` (tools.js 158-174). -/
def flushReady (maxRes : Nat) (p : Pth) (results : List SearchResult)
    (pending : List Pending) : List SearchResult × List Pending × Bool :=
  let t := flushRev maxRes p results pending.reverse
  (t.1, t.2.1.reverse, t.2.2)

/-- Per-file scanning state: the pending contexts, the "before" ring
buffer, the 1-based line counter and the per-file match flag. -/
structure FileScan where
  pending : List Pending
  beforeBuf : List LineEntry
  lineNumber : Nat
  fileHadMatch : Bool
  deriving DecidableEq, Repr

/-- `processLine` (tools.js 176-202): fill "after" context of in-flight
matches, open a new context when capacity remains and the line matches,
then update the ring buffer. -/
def processLine (q : List Char) (cs : Bool) (ctx maxLen maxRes resultsLen : Nat)
    (st : FileScan) (rawLine : List Char) : FileScan :=
  let entry : LineEntry := ⟨st.lineNumber, clipLine rawLine maxLen⟩
  let pending1 := st.pending.map (fun r =>
    if r.remainingAfter > 0 then
      ⟨r.matchLine, r.remainingAfter - 1, r.lines ++ [entry]⟩
    else r)
  let isMatch : Bool :=
    (resultsLen + pending1.length < maxRes) ∧ matchesLine rawLine q cs
  let pending2 := if isMatch then
      pending1 ++ [⟨st.lineNumber, ctx,
        (st.beforeBuf.drop (st.beforeBuf.length - ctx)) ++ [entry]⟩]
    else pending1
  let hadMatch := st.fileHadMatch || isMatch
  let buf := if ctx > 0 then
      let b := st.beforeBuf ++ [entry]
      if b.length > ctx then b.drop 1 else b
    else st.beforeBuf
  ⟨pending2, buf, st.lineNumber + 1, hadMatch⟩

/-- Split a text at every `'\n'` (the chunk loop's `indexOf("\n")`
splitting, tools.js 208-213); the final element is the unterminated
carry, possibly empty. -/
def splitLF : List Char → List (List Char)
  | [] => [[]]
  | c :: rest =>
    if c = '\n' then [] :: splitLF rest
    else
      match splitLF rest with
      | h :: t => (c :: h) :: t
      | [] => [[c]]

/-- The complete-line loop of one file (tools.js 208-226): process each
terminated line and flush; an early `true` models the in-loop
`return { ..., truncated: true, ... }`.  (The post-chunk
`results.length >= maxRes` break at tools.js 229-232 is unreachable:
every path that fills `results` to the cap goes through `flushReady`,
which triggers the in-loop return first.) -/
def scanLines (q : List Char) (cs : Bool) (ctx maxLen maxRes : Nat) (p : Pth) :
    List (List Char) → List SearchResult → FileScan →
    List SearchResult × FileScan × Bool
  | [], results, st => (results, st, false)
  | line :: rest, results, st =>
    let st1 := processLine q cs ctx maxLen maxRes results.length st line
    let f := flushReady maxRes p results st1.pending
    if f.2.2 then (f.1, ⟨f.2.1, st1.beforeBuf, st1.lineNumber, st1.fileHadMatch⟩, true)
    else scanLines q cs ctx maxLen maxRes p rest f.1
      ⟨f.2.1, st1.beforeBuf, st1.lineNumber, st1.fileHadMatch⟩

/-- Scan one file (tools.js 149-245): complete lines, then the final
carry (processed without an early-return flush), then end-of-file
finalization of the surviving pendings.  Returns the grown results,
whether the in-loop cap return fired, and the file's match flag. -/
def scanFile (q : List Char) (cs : Bool) (ctx maxLen maxRes : Nat) (p : Pth)
    (bytes : Bytes) (results : List SearchResult) :
    List SearchResult × Bool × Bool :=
  let parts := splitLF (decodeUtf8 bytes)
  let r1 := scanLines q cs ctx maxLen maxRes p parts.dropLast results ⟨[], [], 1, false⟩
  if r1.2.2 then (r1.1, true, r1.2.1.fileHadMatch)
  else
    let carry := (parts.getLast?).getD []
    let st2 := if carry.isEmpty then r1.2.1
      else processLine q cs ctx maxLen maxRes r1.1.length r1.2.1 carry
    if st2.pending.isEmpty then (r1.1, false, st2.fileHadMatch)
    else
      let pz := st2.pending.map (fun r => ⟨r.matchLine, 0, r.lines⟩)
      let f := flushReady maxRes p r1.1 pz
      (f.1, false, st2.fileHadMatch)

/-- Accumulated whole-search state (tools.js 128-132). -/
structure GAcc where
  results : List SearchResult
  truncated : Bool
  scannedFiles : Nat
  matchedFiles : Nat
  skippedBinaryFiles : Nat
  deriving DecidableEq, Repr

/-- The outer file loop (tools.js 134-246). -/
def searchFiles (w : Ws) (q : List Char) (cs : Bool) (ctx maxLen maxRes : Nat) :
    List Pth → GAcc → GAcc
  | [], acc => acc
  | p :: rest, acc =>
    if maxRes ≤ acc.results.length then { acc with truncated := true }
    else
      match w.lookupFile p with
      | none => searchFiles w q cs ctx maxLen maxRes rest acc
      | some bytes =>
        let acc1 := { acc with scannedFiles := acc.scannedFiles + 1 }
        if ¬ shouldTreatAsText bytes then
          searchFiles w q cs ctx maxLen maxRes rest
            { acc1 with skippedBinaryFiles := acc1.skippedBinaryFiles + 1 }
        else
          let r := scanFile q cs ctx maxLen maxRes p bytes acc1.results
          if r.2.1 then
            { acc1 with
              results := r.1
              truncated := true
              matchedFiles := acc1.matchedFiles + (if r.2.2 then 1 else 0) }
          else
            searchFiles w q cs ctx maxLen maxRes rest
              { acc1 with
                results := r.1
                matchedFiles := acc1.matchedFiles + (if r.2.2 then 1 else 0) }

/-- The characters of the canonical path string `"/a/b"` for
`["a","b"]` (the root renders as the empty list, which sorts first just
as `"/"` sorts before every longer path), used only for the
`filePaths.sort()` ordering. -/
def renderKey (p : Pth) : List Char := p.foldl (fun acc s => acc ++ '/' :: s.data) []

/-- `p.startsWith(dirPrefix)` (tools.js 120-123) on canonical paths:
everything is under the root; otherwise the scope path must be a proper
segment prefix. -/
def underDir (pre p : Pth) : Bool := pre = [] || (pre.isPrefixOf p && ¬ p = pre)

/-- `fs_search` (tools.js 95-260).  Clamps model
`Math.max/Math.min/|| default` on natural-number arguments; `caseSensitive`
omitted (`none`) selects smart case. -/
def fsSearch (w : Ws) (query : List Char) (pathPre : Pth)
    (maxResults contextLines maxLineLength : Nat)
    (caseSensitive : Option Bool) : Except FsErr SearchOut :=
  if query.isEmpty then .error .einval
  else
    match assertUserPath pathPre with
    | .error e => .error e
    | .ok pre =>
      match w.stat pre with
      | none => .error .enoent
      | some st =>
        let maxRes := max 1 (min 50 (if maxResults = 0 then 8 else maxResults))
        let ctx := min 20 contextLines
        let maxLen := max 20 (min 2000 (if maxLineLength = 0 then 240 else maxLineLength))
        let cs := caseSensitive.getD (hasUppercase query)
        let filePaths := if st.1 then [pre]
          else sortBy (fun a b => charListLe (renderKey a) (renderKey b))
            ((w.files.map (fun kv => kv.1)).filter
              (fun p => ¬ isTimePath p ∧ underDir pre p))
        let g := searchFiles w query cs ctx maxLen maxRes filePaths
          ⟨[], false, 0, 0, 0⟩
        .ok ⟨query, pre, cs, maxRes, ctx, g.results, g.truncated,
          g.scannedFiles, g.matchedFiles, g.skippedBinaryFiles⟩

/-! ## Results: reserved namespace at the tools facade (C2) -/

/-- C2: every tools-facade operation given a path equal to `/.time` or
beneath it fails with `EACCES` (for `fs_search` once its query passes the
non-empty argument check that precedes path handling), and a listing of
the root never contains the name `.time`. -/
theorem c2_tools_deny_reserved :
    (∀ (w : Ws) (p : Pth) (maxB : Nat), isTimePath p = true →
      fsRead w p maxB = .error .eacces) ∧
    (∀ (w : Ws) (p : Pth) (s e maxB : Nat), isTimePath p = true →
      fsReadLines w p s e maxB = .error .eacces) ∧
    (∀ (w : Ws) (p : Pth) (c : Bytes) (ov : Bool), isTimePath p = true →
      (fsWrite w p c ov).1 = .error .eacces) ∧
    (∀ (w : Ws) (p : Pth) (s e : Nat) (r : List Char), isTimePath p = true →
      (fsPatchLines w p s e r).1 = .error .eacces) ∧
    (∀ (w : Ws) (p : Pth), isTimePath p = true →
      fsList w p = .error .eacces) ∧
    (∀ (w : Ws) (p : Pth), isTimePath p = true →
      fsStat w p = .error .eacces) ∧
    (∀ (w : Ws) (p : Pth) (r : Bool), isTimePath p = true →
      (fsMkdir w p r).1 = .error .eacces) ∧
    (∀ (w : Ws) (p : Pth), isTimePath p = true →
      (fsDelete w p).1 = .error .eacces) ∧
    (∀ (w : Ws) (q : List Char) (p : Pth) (a b c : Nat) (cs : Option Bool),
      ¬ q = [] → isTimePath p = true →
      fsSearch w q p a b c cs = .error .eacces) ∧
    (∀ (w : Ws) (out : ListOut), fsList w [] = .ok out →
      ".time" ∉ out.entries) := by
  refine ⟨?_, ?_, ?_, ?_, ?_, ?_, ?_, ?_, ?_, ?_⟩
  · intro w p maxB h
    simp only [fsRead, assertUserPath, h, if_true]
    all_goals rfl
  · intro w p s e maxB h
    simp only [fsReadLines, assertUserPath, h, if_true]
    all_goals rfl
  · intro w p c ov h
    simp only [fsWrite, assertUserPath, h, if_true]
  · intro w p s e r h
    simp only [fsPatchLines, assertUserPath, h, if_true]
  · intro w p h
    simp only [fsList, assertUserPath, h, if_true]
    all_goals rfl
  · intro w p h
    simp only [fsStat, assertUserPath, h, if_true]
    all_goals rfl
  · intro w p r h
    simp only [fsMkdir, assertUserPath, h, if_true]
  · intro w p h
    simp only [fsDelete, assertUserPath, h, if_true]
  · intro w q p a b c cs hq h
    have : q.isEmpty = false := by
      cases q with
      | nil => exact absurd rfl hq
      | cons _ _ => rfl
    simp only [fsSearch, assertUserPath, this, h, if_true, Bool.false_eq_true,
      if_false]
  · intro w out hok
    have hok2 : Except.bind (w.list []) (fun entries =>
        Except.ok (⟨[], List.filter (fun e => decide (¬ e = ".time")) entries⟩ : ListOut))
        = Except.ok out := hok
    cases hlist : w.list [] with
    | error e =>
      rw [hlist] at hok2
      exact absurd hok2 (by simp [Except.bind])
    | ok entries =>
      rw [hlist] at hok2
      simp only [Except.bind, Except.ok.injEq] at hok2
      intro hmem
      have hmem2 : ".time" ∈ List.filter (fun e => decide (¬ e = ".time")) entries := by
        rw [← hok2] at hmem
        exact hmem
      have := (List.mem_filter.1 hmem2).2
      simp at this

/-- Witness for C2 at concrete inputs: every operation on `/.time/x`
(and `fs_search` scoped to `/.time` with query `"a"`) is denied, and the
root listing of a workspace holding `/.time/state.json` and `/a.txt`
contains no `.time` entry. -/
theorem c2_tools_deny_reserved_witness :
    fsRead Ws.empty [".time", "x"] 100 = .error .eacces ∧
    fsReadLines Ws.empty [".time", "x"] 1 200 100 = .error .eacces ∧
    (fsWrite Ws.empty [".time", "x"] [1] true).1 = .error .eacces ∧
    (fsPatchLines Ws.empty [".time", "x"] 1 1 ['a']).1 = .error .eacces ∧
    fsList Ws.empty [".time"] = .error .eacces ∧
    fsStat Ws.empty [".time"] = .error .eacces ∧
    (fsMkdir Ws.empty [".time", "d"] true).1 = .error .eacces ∧
    (fsDelete Ws.empty [".time", "x"]).1 = .error .eacces ∧
    fsSearch Ws.empty ['a'] [".time"] 0 0 0 none = .error .eacces ∧
    ".time" ∉
      (ListOut.mk [] ["a.txt"]).entries := by
  have h := c2_tools_deny_reserved
  refine ⟨h.1 Ws.empty [".time", "x"] 100 rfl,
    h.2.1 Ws.empty [".time", "x"] 1 200 100 rfl,
    h.2.2.1 Ws.empty [".time", "x"] [1] true rfl,
    h.2.2.2.1 Ws.empty [".time", "x"] 1 1 ['a'] rfl,
    h.2.2.2.2.1 Ws.empty [".time"] rfl,
    h.2.2.2.2.2.1 Ws.empty [".time"] rfl,
    h.2.2.2.2.2.2.1 Ws.empty [".time", "d"] true rfl,
    h.2.2.2.2.2.2.2.1 Ws.empty [".time", "x"] rfl,
    h.2.2.2.2.2.2.2.2.1 Ws.empty ['a'] [".time"] 0 0 0 none (by simp) rfl,
    h.2.2.2.2.2.2.2.2.2 (c1Ws.writeFile ["a.txt"] [9] true).2
      (ListOut.mk [] ["a.txt"]) (by decide)⟩


/-! ## Results: `fs_patch_lines` (C8, C9) -/

theorem splitGo_all_no_newline (l acc : List Char) (h : '\n' ∉ l) :
    splitGo l acc = [acc.reverse ++ l] := by
  induction l generalizing acc with
  | nil => simp [splitGo]
  | cons c l' ih =>
    have hc : ¬ c = '\n' := fun hx => h (hx ▸ List.mem_cons_self c l')
    have h' : '\n' ∉ l' := fun hx => h (List.mem_cons_of_mem c hx)
    rw [splitGo, if_neg hc, ih (c :: acc) h']
    simp

theorem splitGo_break (l rest : List Char) (acc : List Char) (h : '\n' ∉ l) :
    splitGo (l ++ '\n' :: rest) acc =
      (if (l.reverse ++ acc).head? = some '\r'
        then (l.reverse ++ acc).tail.reverse
        else (l.reverse ++ acc).reverse) :: splitGo rest [] := by
  induction l generalizing acc with
  | nil => simp [splitGo]
  | cons c l' ih =>
    have hc : ¬ c = '\n' := fun hx => h (hx ▸ List.mem_cons_self c l')
    have h' : '\n' ∉ l' := fun hx => h (List.mem_cons_of_mem c hx)
    rw [List.cons_append, splitGo, if_neg hc, ih (c :: acc) h']
    simp

theorem splitGo_ne_nil (t : List Char) : ∀ acc, splitGo t acc ≠ [] := by
  induction t with
  | nil => intro acc; simp [splitGo]
  | cons c rest ih =>
    intro acc
    rw [splitGo]
    split
    · simp
    · exact ih _

theorem splitLines_ne_nil (t : List Char) : splitLinesCRLF t ≠ [] :=
  splitGo_ne_nil t []

theorem splitGo_no_newline_mem (t : List Char) :
    ∀ acc, '\n' ∉ acc → ∀ l ∈ splitGo t acc, '\n' ∉ l := by
  induction t with
  | nil =>
    intro acc hacc l hl
    rw [splitGo] at hl
    simp only [List.mem_singleton] at hl
    subst hl
    simpa using hacc
  | cons c rest ih =>
    intro acc hacc l hl
    rw [splitGo] at hl
    by_cases hc : c = '\n'
    · rw [if_pos hc] at hl
      rcases List.mem_cons.1 hl with rfl | hl2
      · split
        · intro hmem
          exact hacc (List.mem_of_mem_tail (List.mem_reverse.1 hmem))
        · intro hmem
          exact hacc (List.mem_reverse.1 hmem)
      · exact ih [] (by simp) l hl2
    · rw [if_neg hc] at hl
      refine ih (c :: acc) ?_ l hl
      intro hmem
      rcases List.mem_cons.1 hmem with heq | hmem2
      · exact hc heq.symm
      · exact hacc hmem2

theorem splitLines_no_newline (t : List Char) :
    ∀ l ∈ splitLinesCRLF t, '\n' ∉ l :=
  splitGo_no_newline_mem t [] (by simp)

theorem splitLines_joinLF (ls : List (List Char)) (hne : ls ≠ [])
    (hn : ∀ l ∈ ls, '\n' ∉ l) (hcr : ∀ l ∈ ls, l.getLast? ≠ some '\r') :
    splitLinesCRLF (joinLF ls) = ls := by
  induction ls with
  | nil => exact absurd rfl hne
  | cons l rest ih =>
    cases rest with
    | nil =>
      have hl : '\n' ∉ l := hn l (List.mem_cons_self _ _)
      have : joinLF [l] = l := by simp [joinLF, List.intersperse]
      rw [this, splitLinesCRLF]
      simpa using splitGo_all_no_newline l [] hl
    | cons l2 rest2 =>
      have hl : '\n' ∉ l := hn l (List.mem_cons_self _ _)
      have hjoin : joinLF (l :: l2 :: rest2) = l ++ '\n' :: joinLF (l2 :: rest2) := by
        simp [joinLF, List.intersperse]
      rw [hjoin, splitLinesCRLF, splitGo_break l _ [] hl]
      have hlast : l.getLast? ≠ some '\r' := hcr l (List.mem_cons_self _ _)
      have hcond : ¬ (l.reverse ++ []).head? = some '\r' := by
        rw [List.append_nil, List.head?_reverse]
        exact hlast
      rw [if_neg hcond, List.append_nil, List.reverse_reverse]
      have htail := ih (by simp)
        (fun x hx => hn x (List.mem_cons_of_mem l hx))
        (fun x hx => hcr x (List.mem_cons_of_mem l hx))
      rw [splitLinesCRLF] at htail
      rw [htail]

theorem lookupFile_setFile_self (w : Ws) (p : Pth) (v : Bytes) :
    (w.setFile p v).lookupFile p = some v := by
  simp [Ws.setFile, Ws.lookupFile, List.find?]

/-- A CRLF file patched through `fs_patch_lines`: lines 1 and 3 lie
outside the replaced range `[2,2]`. -/
def c8Ws : Ws :=
  (Ws.empty.writeFile ["f.txt"] (encodeUtf8 "a\r\nb\r\nc".toList) true).2

/-- C8 counterexample: the claim says every line outside the range is
byte-for-byte unchanged, including CRLF files.  Patching line 2 of
`"a\r\nb\r\nc"` yields `"a\nX\nc"` (tools.js 314 rejoins with `"\n"`):
the first three bytes — line 1 `"a"` plus its CRLF terminator, entirely
outside the range — change from `a \r \n` to `a \n X`. -/
theorem c8_crlf_bytes_not_preserved :
    (fsPatchLines c8Ws ["f.txt"] 2 2 "X".toList).1 = .ok ["f.txt"] ∧
    ((fsPatchLines c8Ws ["f.txt"] 2 2 "X".toList).2.lookupFile ["f.txt"]
      = some (encodeUtf8 "a\nX\nc".toList)) ∧
    ¬ ((encodeUtf8 "a\nX\nc".toList).take 3
      = (encodeUtf8 "a\r\nb\r\nc".toList).take 3) := by
  decide

/-- C8 amended: `fs_patch_lines` replaces exactly the 1-based inclusive
range `[startLine, endLine]` with the replacement's lines and keeps the
content of every line outside the range, with all line terminators
rewritten to LF (stated for texts and replacements none of whose split
lines carries a stray trailing CR, which would coalesce with the LF
join). -/
theorem c8_patch_lines_amended (t repl : List Char) (s e : Nat)
    (hs : 1 ≤ s) (hse : s ≤ e) (he : e ≤ (splitLinesCRLF t).length)
    (hcr : ∀ l ∈ ((splitLinesCRLF t).take (s - 1) ++ splitLinesCRLF repl ++
        (splitLinesCRLF t).drop e), l.getLast? ≠ some '\r') :
    splitLinesCRLF (patchLinesText t s e repl) =
      (splitLinesCRLF t).take (s - 1) ++ splitLinesCRLF repl ++
        (splitLinesCRLF t).drop e := by
  have hs' : max 1 s = s := by omega
  have hse' : max s e = e := by omega
  have key : patchLinesText t s e repl =
      joinLF ((splitLinesCRLF t).take (s - 1) ++ splitLinesCRLF repl ++
        (splitLinesCRLF t).drop e) := by
    rw [patchLinesText]
    simp only [hs', hse']
  rw [key]
  refine splitLines_joinLF _ ?_ ?_ hcr
  · intro hx
    rcases List.append_eq_nil.1 hx with ⟨hx1, -⟩
    rcases List.append_eq_nil.1 hx1 with ⟨-, hrep⟩
    exact splitLines_ne_nil repl hrep
  · intro l hl
    rcases List.mem_append.1 hl with h12 | h4
    · rcases List.mem_append.1 h12 with h1 | h3
      · exact splitLines_no_newline t l (List.take_subset _ _ h1)
      · exact splitLines_no_newline repl l h3
    · exact splitLines_no_newline t l (List.drop_subset _ _ h4)

/-- Witness for the amended C8 on `"a\nb\nc"`, range `[2,2]`,
replacement `"X"`. -/
theorem c8_patch_lines_amended_witness :
    splitLinesCRLF (patchLinesText "a\nb\nc".toList 2 2 "X".toList) =
      (splitLinesCRLF "a\nb\nc".toList).take 1 ++ splitLinesCRLF "X".toList ++
        (splitLinesCRLF "a\nb\nc".toList).drop 2 :=
  c8_patch_lines_amended "a\nb\nc".toList "X".toList 2 2
    (by decide) (by decide) (by decide) (by decide)

/-- C9: when `startLine` exceeds the file's total line count,
`fs_patch_lines` succeeds, keeping every original line in place and
appending the replacement's lines after them. -/
theorem c9_patch_beyond_end (w : Ws) (p : Pth) (bytes : Bytes) (s e : Nat)
    (repl : List Char)
    (hres : isTimePath p = false)
    (hfile : w.lookupFile p = some bytes)
    (hs : (splitLinesCRLF (decodeUtf8 bytes)).length < s) :
    (fsPatchLines w p s e repl).1 = .ok p ∧
    ((fsPatchLines w p s e repl).2.lookupFile p =
      some (encodeUtf8 (joinLF (splitLinesCRLF (decodeUtf8 bytes) ++
        splitLinesCRLF repl)))) := by
  have h1 : 1 ≤ (splitLinesCRLF (decodeUtf8 bytes)).length :=
    List.length_pos.2 (splitLines_ne_nil _)
  have hs' : max 1 s = s := by omega
  have htake : (splitLinesCRLF (decodeUtf8 bytes)).take (s - 1) =
      splitLinesCRLF (decodeUtf8 bytes) :=
    List.take_of_length_le (by omega)
  have hdrop : (splitLinesCRLF (decodeUtf8 bytes)).drop (max s e) =
      ([] : List (List Char)) :=
    List.drop_eq_nil_of_le (by omega)
  have hpatch : patchLinesText (decodeUtf8 bytes) s e repl =
      joinLF (splitLinesCRLF (decodeUtf8 bytes) ++ splitLinesCRLF repl) := by
    rw [patchLinesText]
    simp only [hs', htake, hdrop, List.append_nil]
  rw [fsPatchLines, assertUserPath, hres]
  simp only [Bool.false_eq_true, if_false]
  rw [Ws.readFile, hfile]
  simp only
  rw [hpatch]
  rw [Ws.writeFile]
  simp only [not_true, false_and, if_false]
  exact ⟨trivial, lookupFile_setFile_self _ _ _⟩

/-- Witness for C9: patching `"a\nb"` (2 lines) at `startLine = 5`
appends the replacement after the original lines. -/
theorem c9_patch_beyond_end_witness :
    (fsPatchLines (Ws.empty.writeFile ["g"] (encodeUtf8 "a\nb".toList) true).2
        ["g"] 5 6 "XX".toList).1 = .ok ["g"] ∧
    ((fsPatchLines (Ws.empty.writeFile ["g"] (encodeUtf8 "a\nb".toList) true).2
        ["g"] 5 6 "XX".toList).2.lookupFile ["g"] =
      some (encodeUtf8 (joinLF (splitLinesCRLF (decodeUtf8 (encodeUtf8 "a\nb".toList)) ++
        splitLinesCRLF "XX".toList)))) :=
  c9_patch_beyond_end _ ["g"] (encodeUtf8 "a\nb".toList) 5 6 "XX".toList
    (by decide) (by decide) (by decide)

/-! ## Results: `fs_search` bounds (C10) -/

theorem mem_insertSorted {cmp : α → α → Bool} {x y : α} {l : List α} :
    y ∈ insertSorted cmp x l ↔ y = x ∨ y ∈ l := by
  induction l with
  | nil => simp [insertSorted]
  | cons z zs ih =>
    rw [insertSorted]
    split
    · simp
    · rw [List.mem_cons, ih, List.mem_cons]
      tauto

theorem length_insertSorted (cmp : α → α → Bool) (x : α) (l : List α) :
    (insertSorted cmp x l).length = l.length + 1 := by
  induction l with
  | nil => simp [insertSorted]
  | cons z zs ih =>
    rw [insertSorted]
    split
    · simp
    · simp [ih]

theorem mem_sortBy {cmp : α → α → Bool} {l : List α} {y : α} :
    y ∈ sortBy cmp l ↔ y ∈ l := by
  induction l with
  | nil => simp [sortBy]
  | cons z zs ih =>
    rw [sortBy, List.foldr_cons, mem_insertSorted, List.mem_cons]
    rw [sortBy] at ih
    rw [ih]

theorem length_sortBy (cmp : α → α → Bool) (l : List α) :
    (sortBy cmp l).length = l.length := by
  induction l with
  | nil => simp [sortBy]
  | cons z zs ih =>
    rw [sortBy, List.foldr_cons, length_insertSorted]
    rw [sortBy] at ih
    rw [ih, List.length_cons]

theorem lookupFile_isSome_of_mem_keys {w : Ws} {p : Pth}
    (h : p ∈ w.files.map (fun kv => kv.1)) : (w.lookupFile p).isSome := by
  rcases List.mem_map.1 h with ⟨kv, hkv, rfl⟩
  rcases hfind : w.files.find? (fun x => decide (x.1 = kv.1)) with _ | x
  · have := List.find?_eq_none.1 hfind kv hkv
    simp at this
  · rw [Ws.lookupFile, hfind]
    rfl

theorem flushRev_spec (maxRes : Nat) (p : Pth) (pending : List Pending) :
    ∀ (results : List SearchResult), results.length < maxRes →
    (∀ r ∈ (flushRev maxRes p results pending).1,
        r ∈ results ∨ ∃ d, r = mkResult p d) ∧
    ((flushRev maxRes p results pending).2.2 = true →
      (flushRev maxRes p results pending).1.length = maxRes) ∧
    ((flushRev maxRes p results pending).2.2 = false →
      (flushRev maxRes p results pending).1.length < maxRes) := by
  induction pending with
  | nil =>
    intro results hlt
    rw [flushRev]
    exact ⟨fun r hr => Or.inl hr, by simp, fun _ => hlt⟩
  | cons r rest ih =>
    intro results hlt
    rw [flushRev]
    split
    · -- completed pending: push its result
      by_cases hcap : maxRes ≤ (results ++ [mkResult p r]).length
      · rw [if_pos hcap]
        refine ⟨?_, ?_, ?_⟩
        · intro x hx
          rcases List.mem_append.1 hx with hx1 | hx2
          · exact Or.inl hx1
          · exact Or.inr ⟨r, (List.mem_singleton.1 hx2)⟩
        · intro
          simp only [List.length_append, List.length_singleton] at hcap ⊢
          omega
        · simp
      · rw [if_neg hcap]
        have hlt' : (results ++ [mkResult p r]).length < maxRes := by omega
        obtain ⟨hmem, htrue, hfalse⟩ := ih (results ++ [mkResult p r]) hlt'
        refine ⟨?_, htrue, hfalse⟩
        intro x hx
        rcases hmem x hx with hx1 | hx2
        · rcases List.mem_append.1 hx1 with hy1 | hy2
          · exact Or.inl hy1
          · exact Or.inr ⟨r, List.mem_singleton.1 hy2⟩
        · exact Or.inr hx2
    · -- still counting down: untouched
      obtain ⟨hmem, htrue, hfalse⟩ := ih results hlt
      exact ⟨hmem, htrue, hfalse⟩

theorem flushReady_spec (maxRes : Nat) (p : Pth) (results : List SearchResult)
    (pending : List Pending) (hlt : results.length < maxRes) :
    (∀ r ∈ (flushReady maxRes p results pending).1,
        r ∈ results ∨ ∃ d, r = mkResult p d) ∧
    ((flushReady maxRes p results pending).2.2 = true →
      (flushReady maxRes p results pending).1.length = maxRes) ∧
    ((flushReady maxRes p results pending).2.2 = false →
      (flushReady maxRes p results pending).1.length < maxRes) :=
  flushRev_spec maxRes p pending.reverse results hlt

theorem scanLines_spec (q : List Char) (cs : Bool) (ctx maxLen maxRes : Nat)
    (p : Pth) (lines : List (List Char)) :
    ∀ (results : List SearchResult) (st : FileScan), results.length < maxRes →
    (∀ r ∈ (scanLines q cs ctx maxLen maxRes p lines results st).1,
        r ∈ results ∨ ∃ d, r = mkResult p d) ∧
    ((scanLines q cs ctx maxLen maxRes p lines results st).2.2 = true →
      (scanLines q cs ctx maxLen maxRes p lines results st).1.length = maxRes) ∧
    ((scanLines q cs ctx maxLen maxRes p lines results st).2.2 = false →
      (scanLines q cs ctx maxLen maxRes p lines results st).1.length < maxRes) := by
  induction lines with
  | nil =>
    intro results st hlt
    rw [scanLines]
    exact ⟨fun r hr => Or.inl hr, by simp, fun _ => hlt⟩
  | cons line rest ih =>
    intro results st hlt
    rw [scanLines]
    obtain ⟨hmem, htrue, hfalse⟩ := flushReady_spec maxRes p results
      (processLine q cs ctx maxLen maxRes results.length st line).pending hlt
    split
    · next hcap => exact ⟨hmem, fun _ => htrue hcap, by simp_all⟩
    · next hnocap =>
      have hlt2 := hfalse (Bool.not_eq_true _ ▸ (by simpa using hnocap))
      obtain ⟨hmem2, htrue2, hfalse2⟩ := ih _ _ hlt2
      refine ⟨?_, htrue2, hfalse2⟩
      intro x hx
      rcases hmem2 x hx with hx1 | hx2
      · exact hmem x hx1
      · exact Or.inr hx2

theorem scanFile_spec (q : List Char) (cs : Bool) (ctx maxLen maxRes : Nat)
    (p : Pth) (bytes : Bytes) (results : List SearchResult)
    (hlt : results.length < maxRes) :
    (∀ r ∈ (scanFile q cs ctx maxLen maxRes p bytes results).1,
        r ∈ results ∨ ∃ d, r = mkResult p d) ∧
    ((scanFile q cs ctx maxLen maxRes p bytes results).2.1 = true →
      (scanFile q cs ctx maxLen maxRes p bytes results).1.length = maxRes) ∧
    ((scanFile q cs ctx maxLen maxRes p bytes results).2.1 = false →
      (scanFile q cs ctx maxLen maxRes p bytes results).1.length ≤ maxRes) := by
  obtain ⟨hmem, htrue, hfalse⟩ := scanLines_spec q cs ctx maxLen maxRes p
    (splitLF (decodeUtf8 bytes)).dropLast results ⟨[], [], 1, false⟩ hlt
  simp only [scanFile]
  set r1 := scanLines q cs ctx maxLen maxRes p
    (splitLF (decodeUtf8 bytes)).dropLast results ⟨[], [], 1, false⟩ with hr1
  by_cases hcap : r1.2.2 = true
  · rw [if_pos hcap]
    exact ⟨hmem, fun _ => htrue hcap, by simp⟩
  · rw [if_neg hcap]
    have hlt2 : r1.1.length < maxRes := hfalse (Bool.not_eq_true _ ▸ (by simpa using hcap))
    set st2 := (if ((splitLF (decodeUtf8 bytes)).getLast?.getD []).isEmpty then r1.2.1
      else processLine q cs ctx maxLen maxRes r1.1.length r1.2.1
        ((splitLF (decodeUtf8 bytes)).getLast?.getD [])) with hst2
    by_cases hpe : st2.pending.isEmpty = true
    · rw [if_pos hpe]
      exact ⟨hmem, by simp, fun _ => Nat.le_of_lt hlt2⟩
    · rw [if_neg hpe]
      obtain ⟨hmem2, htrue2, hfalse2⟩ := flushReady_spec maxRes p r1.1
        (st2.pending.map (fun r => ⟨r.matchLine, 0, r.lines⟩)) hlt2
      refine ⟨?_, by simp, ?_⟩
      · intro x hx
        rcases hmem2 x hx with hx1 | hx2
        · exact hmem x hx1
        · exact Or.inr hx2
      · intro
        rcases hb : (flushReady maxRes p r1.1
            (st2.pending.map (fun r => ⟨r.matchLine, 0, r.lines⟩))).2.2 with _ | _
        · exact Nat.le_of_lt (hfalse2 hb)
        · exact Nat.le_of_eq (htrue2 hb)

theorem searchFiles_spec (w : Ws) (q : List Char) (cs : Bool)
    (ctx maxLen maxRes : Nat) (fps : List Pth) :
    ∀ (acc : GAcc),
    acc.results.length ≤ maxRes →
    acc.truncated = false →
    (∀ r ∈ acc.results, isTimePath r.path = false) →
    (∀ p ∈ fps, isTimePath p = false) →
    (∀ p ∈ fps, (w.lookupFile p).isSome) →
    (∀ r ∈ (searchFiles w q cs ctx maxLen maxRes fps acc).results,
      isTimePath r.path = false) ∧
    (searchFiles w q cs ctx maxLen maxRes fps acc).results.length ≤ maxRes ∧
    ((searchFiles w q cs ctx maxLen maxRes fps acc).truncated = true →
      (searchFiles w q cs ctx maxLen maxRes fps acc).results.length = maxRes) ∧
    ((searchFiles w q cs ctx maxLen maxRes fps acc).truncated = false →
      (searchFiles w q cs ctx maxLen maxRes fps acc).scannedFiles =
        acc.scannedFiles + fps.length) := by
  induction fps with
  | nil =>
    intro acc hlen htf hacc _ _
    rw [searchFiles]
    exact ⟨hacc, hlen, fun ht => absurd (htf ▸ ht) (by simp), fun _ => by simp⟩
  | cons p rest ih =>
    intro acc hlen htf hacc hfps hlook
    rw [searchFiles]
    split
    · next hcap =>
      refine ⟨hacc, hlen, fun _ => ?_, fun hfalse => ?_⟩
      · simp only []
        omega
      · simp at hfalse
    · next hnocap =>
      split
      · next hbytes =>
        have := hlook p (List.mem_cons_self _ _)
        rw [hbytes] at this
        simp at this
      · next bytes hbytes =>
        split
        · -- binary file skipped
          have := ih { acc with
              scannedFiles := acc.scannedFiles + 1,
              skippedBinaryFiles := acc.skippedBinaryFiles + 1 }
            hlen htf hacc (fun x hx => hfps x (List.mem_cons_of_mem _ hx))
            (fun x hx => hlook x (List.mem_cons_of_mem _ hx))
          refine ⟨this.1, this.2.1, this.2.2.1, fun hfalse => ?_⟩
          have hs := this.2.2.2 hfalse
          simp only [] at hs ⊢
          rw [hs]
          simp only [List.length_cons]
          omega
        · -- text file: scan it
          have hlt : acc.results.length < maxRes := by omega
          obtain ⟨hmem, htrue, hfalse'⟩ :=
            scanFile_spec q cs ctx maxLen maxRes p bytes acc.results hlt
          have hmempath : ∀ r ∈ (scanFile q cs ctx maxLen maxRes p bytes
              acc.results).1, isTimePath r.path = false := by
            intro x hx
            rcases hmem x hx with hx1 | ⟨d, rfl⟩
            · exact hacc x hx1
            · exact hfps p (List.mem_cons_self _ _)
          dsimp only []
          split
          · next hearly =>
            refine ⟨hmempath, ?_, fun _ => ?_, fun hfalse => ?_⟩
            · simp only []
              exact Nat.le_of_eq (htrue hearly)
            · simp only []
              exact htrue hearly
            · simp at hfalse
          · next hlate =>
            have hle := hfalse' (by simpa using hlate)
            have := ih { acc with
                results := (scanFile q cs ctx maxLen maxRes p bytes acc.results).1,
                scannedFiles := acc.scannedFiles + 1,
                matchedFiles := acc.matchedFiles +
                  (if (scanFile q cs ctx maxLen maxRes p bytes acc.results).2.2
                    then 1 else 0) }
              hle htf hmempath (fun x hx => hfps x (List.mem_cons_of_mem _ hx))
              (fun x hx => hlook x (List.mem_cons_of_mem _ hx))
            refine ⟨this.1, this.2.1, this.2.2.1, fun hfalse => ?_⟩
            have hs := this.2.2.2 hfalse
            simp only [] at hs ⊢
            rw [hs]
            simp only [List.length_cons]
            omega

theorem assertUserPath_ok_inv {p q : Pth} (h : assertUserPath p = .ok q) :
    q = p ∧ isTimePath p = false := by
  rw [assertUserPath] at h
  split at h
  · exact absurd h (by simp)
  · next hfalse =>
    injection h with h2
    exact ⟨h2.symm, by simpa using hfalse⟩

theorem stat_file_lookup {w : Ws} {p : Pth} {n : Nat}
    (h : w.stat p = some (true, n)) : (w.lookupFile p).isSome := by
  rcases hl : w.lookupFile p with _ | bytes
  · rw [Ws.stat, hl] at h
    split at h <;> simp_all
  · simp

/-- A single-file workspace whose only line matches the query. -/
def c10Ws : Ws := (Ws.empty.writeFile ["f"] (encodeUtf8 "x\n".toList) true).2

/-- C10 counterexample to the `truncated` iff: searching `"x"` in the
one-file workspace `/f = "x\n"` with `maxResults = 1` consumes the whole
input — the identical search with the cap at 8 finds nothing more and
returns `truncated = false` — yet the capped run reports
`truncated = true` (the in-loop return at tools.js 214-225 fires on the
final line), so `truncated` is not equivalent to "the scan halted early
on reaching the cap". -/
theorem c10_truncated_without_early_halt :
    ((fsSearch c10Ws ['x'] [] 1 0 0 none).toOption.map SearchOut.truncated
      = some true) ∧
    ((fsSearch c10Ws ['x'] [] 8 0 0 none).toOption.map SearchOut.truncated
      = some false) ∧
    ((fsSearch c10Ws ['x'] [] 1 0 0 none).toOption.map SearchOut.results =
      (fsSearch c10Ws ['x'] [] 8 0 0 none).toOption.map SearchOut.results) ∧
    ((fsSearch c10Ws ['x'] [] 1 0 0 none).toOption.map SearchOut.scannedFiles
      = some 1) := by
  decide

/-- C10 amended: `fs_search` returns no match under `/.time` and at most
`maxResults` results; `truncated = true` implies the result cap was
reached exactly, and `truncated = false` implies the scan ran to
completion (every in-scope file was visited). -/
theorem c10_search_bounds (w : Ws) (q : List Char) (ppre : Pth)
    (a b c : Nat) (cs : Option Bool) (out : SearchOut)
    (h : fsSearch w q ppre a b c cs = .ok out) :
    (∀ r ∈ out.results, isTimePath r.path = false) ∧
    out.results.length ≤ out.maxResults ∧
    (out.truncated = true → out.results.length = out.maxResults) ∧
    (out.truncated = false →
      out.scannedFiles =
        (if (w.stat out.pathRoot).map Prod.fst = some true then 1
         else ((w.files.map (fun kv => kv.1)).filter
           (fun p => ¬ isTimePath p ∧ underDir out.pathRoot p)).length)) := by
  rw [fsSearch] at h
  split at h
  · exact absurd h (by simp)
  · split at h
    · exact absurd h (by simp)
    · next pre hassert =>
      obtain ⟨rfl, hres⟩ := assertUserPath_ok_inv hassert
      split at h
      · exact absurd h (by simp)
      · next st hstat =>
        dsimp only [] at h
        injection h with hout
        subst hout
        dsimp only []
        rcases st with ⟨isf, size⟩
        by_cases hisf : isf = true
        · subst hisf
          simp only [if_true] at hstat ⊢
          have hspec := searchFiles_spec w q (cs.getD (hasUppercase q))
            (min 20 b) (max 20 (min 2000 (if c = 0 then 240 else c)))
            (max 1 (min 50 (if a = 0 then 8 else a))) [pre]
            ⟨[], false, 0, 0, 0⟩ (by simp) rfl (by simp)
            (by intro x hx; rw [List.mem_singleton.1 hx]; exact hres)
            (by
              intro x hx
              rw [List.mem_singleton.1 hx]
              exact stat_file_lookup hstat)
          refine ⟨hspec.1, hspec.2.1, hspec.2.2.1, fun hfalse => ?_⟩
          rw [hspec.2.2.2 hfalse, hstat]
          simp
        · have hisf' : isf = false := by
            cases isf
            · rfl
            · exact absurd rfl hisf
          subst hisf'
          simp only [Bool.false_eq_true, if_false] at hstat ⊢
          have hspec := searchFiles_spec w q (cs.getD (hasUppercase q))
            (min 20 b) (max 20 (min 2000 (if c = 0 then 240 else c)))
            (max 1 (min 50 (if a = 0 then 8 else a)))
            (sortBy (fun x y => charListLe (renderKey x) (renderKey y))
              ((w.files.map (fun kv => kv.1)).filter
                (fun p => ¬ isTimePath p ∧ underDir pre p)))
            ⟨[], false, 0, 0, 0⟩ (by simp) rfl (by simp)
            (by
              intro x hx
              have hx2 := mem_sortBy.1 hx
              have := (List.mem_filter.1 hx2).2
              simp only [decide_eq_true_eq] at this
              simpa using this.1)
            (by
              intro x hx
              have hx2 := mem_sortBy.1 hx
              exact lookupFile_isSome_of_mem_keys (List.mem_filter.1 hx2).1)
          refine ⟨hspec.1, hspec.2.1, hspec.2.2.1, fun hfalse => ?_⟩
          rw [hspec.2.2.2 hfalse, hstat]
          simp only [Option.map_some, Nat.zero_add]
          rw [if_neg (by simp)]
          rw [length_sortBy]

/-- Witness for the amended C10: searching `"x"` with the cap at 8 on
the one-file workspace returns one unreserved result, below the cap,
untruncated, with the single in-scope file scanned. -/
theorem c10_search_bounds_witness :
    (∀ r ∈ (SearchOut.mk ['x'] [] false 8 0
        [⟨["f"], 1, 1, 1, [⟨1, ['x']⟩]⟩] false 1 1 0).results,
      isTimePath r.path = false) ∧
    (SearchOut.mk ['x'] [] false 8 0
        [⟨["f"], 1, 1, 1, [⟨1, ['x']⟩]⟩] false 1 1 0).results.length ≤
      (SearchOut.mk ['x'] [] false 8 0
        [⟨["f"], 1, 1, 1, [⟨1, ['x']⟩]⟩] false 1 1 0).maxResults ∧
    ((SearchOut.mk ['x'] [] false 8 0
        [⟨["f"], 1, 1, 1, [⟨1, ['x']⟩]⟩] false 1 1 0).truncated = true →
      (SearchOut.mk ['x'] [] false 8 0
        [⟨["f"], 1, 1, 1, [⟨1, ['x']⟩]⟩] false 1 1 0).results.length =
      (SearchOut.mk ['x'] [] false 8 0
        [⟨["f"], 1, 1, 1, [⟨1, ['x']⟩]⟩] false 1 1 0).maxResults) ∧
    ((SearchOut.mk ['x'] [] false 8 0
        [⟨["f"], 1, 1, 1, [⟨1, ['x']⟩]⟩] false 1 1 0).truncated = false →
      (SearchOut.mk ['x'] [] false 8 0
        [⟨["f"], 1, 1, 1, [⟨1, ['x']⟩]⟩] false 1 1 0).scannedFiles =
        (if (c10Ws.stat (SearchOut.mk ['x'] [] false 8 0
            [⟨["f"], 1, 1, 1, [⟨1, ['x']⟩]⟩] false 1 1 0).pathRoot).map Prod.fst
            = some true then 1
         else ((c10Ws.files.map (fun kv => kv.1)).filter
           (fun p => ¬ isTimePath p ∧ underDir (SearchOut.mk ['x'] [] false 8 0
            [⟨["f"], 1, 1, 1, [⟨1, ['x']⟩]⟩] false 1 1 0).pathRoot p)).length)) :=
  c10_search_bounds c10Ws ['x'] [] 8 0 0 none _ (by decide)

/-! ## Time Machine (`src/time_machine.js`)

The persistent state under `/.time` (the `state.json` record, the
`entries/<id>.json` files and the `blobs/<id>/{before,after}/<path>`
byte copies) is modelled as the three components of `Tm`, with JSON
(de)serialization taken as faithful; blob files are addressed by the
same `/.time/blobs/...` paths `blobPath` derives in the source.  Entry
ids come from a clock and a random suffix (`safeId`); the model takes
each freshly minted id as an explicit argument. -/

/-- One change record (`{kind, path, beforeExists, afterExists,
beforeBlob?, afterBlob?}`); `isFile` encodes `kind: file | dir`.  The
derived `beforeSize`/`afterSize` fields are presentation only and
omitted. -/
structure Change where
  isFile : Bool
  path : Pth
  beforeExists : Bool
  afterExists : Bool
  beforeBlob : Option Pth
  afterBlob : Option Pth
  deriving DecidableEq, Repr

/-- `entries/<id>.json` (`createdAt`/`tool`/`note`/`compactedFrom` are
metadata with no behavioral role in the claims). -/
structure Entry where
  id : String
  changes : List Change
  deriving DecidableEq, Repr

/-- An entry summary inside `state.json` (again only `id` is
load-bearing). -/
structure Summary where
  id : String
  deriving DecidableEq, Repr

/-- `state.json`: cursor, ordered summaries and the retention policy.
Zero retention fields model the JS `|| DEFAULT` fallbacks. -/
structure TmState where
  cursor : Nat
  entries : List Summary
  keepRecent : Nat
  maxEntries : Nat
  mergeGroup : Nat
  deriving DecidableEq, Repr

/-- The whole persistent `/.time` tree. -/
structure Tm where
  state : TmState
  entryStore : List (String × Entry)
  blobs : List (Pth × Bytes)
  deriving DecidableEq, Repr

/-- Association-list lookup (`Map.get`). -/
def alookup [DecidableEq κ] (l : List (κ × β)) (k : κ) : Option β :=
  (l.find? (fun kv => kv.1 = k)).map (fun kv => kv.2)

/-- Association-list update (`Map.set` / overwriting file write). -/
def aset [DecidableEq κ] (l : List (κ × β)) (k : κ) (v : β) : List (κ × β) :=
  (k, v) :: l.filter (fun kv => ¬ kv.1 = k)

/-- `blobPath` (time_machine.js 84-88). -/
def blobPath (id : String) (which : Bool) (p : Pth) : Pth :=
  [".time", "blobs", id, if which then "before" else "after"] ++ p

/-- `loadState`'s cursor clamp (time_machine.js 116). -/
def clampState (s : TmState) : TmState :=
  { s with cursor := min s.entries.length s.cursor }

/-- `loadEntry` (time_machine.js 125-127).  The source throws when the
entry JSON is missing; the model returns an empty entry, and every
theorem's hypotheses require the entry to be stored. -/
def loadEntry (store : List (String × Entry)) (id : String) : Entry :=
  (alookup store id).getD ⟨id, []⟩

/-- `deleteEntry` (time_machine.js 202-209): drop the entry JSON and the
whole `/.time/blobs/<id>` subtree. -/
def deleteEntryT (t : Tm) (id : String) : Tm :=
  { t with
    entryStore := t.entryStore.filter (fun kv => ¬ kv.1 = id),
    blobs := t.blobs.filter
      (fun kv => ¬ ([".time", "blobs", id].isPrefixOf kv.1 = true)) }

/-- `computeFileChanges` (time_machine.js 157-184): union the snapshot
keys, skip reserved paths, drop no-ops (same presence and equal bytes),
derive blob paths for each present side, and sort by path. -/
def computeFileChanges (bf af : List (Pth × Bytes)) (id : String) :
    List Change :=
  let keys := dedupFirst (bf.map (fun kv => kv.1) ++ af.map (fun kv => kv.1))
  let out := keys.filterMap (fun p =>
    if isTimePath p then none
    else
      let a := alookup bf p
      let b := alookup af p
      if ¬ a.isSome ∧ ¬ b.isSome then none
      else if a.isSome ∧ b.isSome ∧ a = b then none
      else some ⟨true, p, a.isSome, b.isSome,
        if a.isSome then some (blobPath id true p) else none,
        if b.isSome then some (blobPath id false p) else none⟩)
  sortBy (fun x y => charListLe (renderKey x.path) (renderKey y.path)) out

/-- `computeDirChanges` (time_machine.js 140-155): set symmetric
difference, skipping the root and reserved paths. -/
def computeDirChanges (bd ad : List Pth) : List Change :=
  let before := dedupFirst bd
  let after := dedupFirst ad
  (before.filterMap (fun d =>
    if d = [] then none
    else if isTimePath d then none
    else if after.contains d then none
    else some ⟨false, d, true, false, none, none⟩)) ++
  (after.filterMap (fun d =>
    if d = [] then none
    else if isTimePath d then none
    else if before.contains d then none
    else some ⟨false, d, false, true, none, none⟩))

/-- `writeBlobs` (time_machine.js 186-200): store each present side's
snapshot bytes under the change's blob path.  (A key missing from the
snapshot would make the source throw on `Buffer.from(undefined)`; the
model skips, and recorded changes always carry their snapshot bytes.) -/
def writeBlobs (blobs : List (Pth × Bytes)) (changes : List Change)
    (bf af : List (Pth × Bytes)) : List (Pth × Bytes) :=
  changes.foldl (fun acc ch =>
    if ¬ ch.isFile = true then acc
    else
      let acc1 := match ch.beforeBlob,
          (if ch.beforeExists then alookup bf ch.path else none) with
        | some bp, some v => aset acc bp v
        | _, _ => acc
      match ch.afterBlob,
          (if ch.afterExists then alookup af ch.path else none) with
      | some bp, some v => aset acc1 bp v
      | _, _ => acc1) blobs

/-- One file change of `applyEntry` (time_machine.js 348-361): write the
`which`-side blob bytes when that side exists, otherwise delete the file
if present. -/
def applyFileChange (blobs : List (Pth × Bytes)) (which : Bool)
    (acc : Ws) (ch : Change) : Ws :=
  if isTimePath ch.path then acc
  else if (if which then ch.beforeExists else ch.afterExists) then
    match (if which then ch.beforeBlob else ch.afterBlob) with
    | none => acc
    | some bp =>
      match alookup blobs bp with
      | none => acc
      | some bytes => (acc.writeFile ch.path bytes true).2
  else
    match acc.stat ch.path with
    | some (true, _) => (acc.del ch.path).2
    | _ => acc

/-- One directory creation of `applyEntry` (time_machine.js 374-377). -/
def applyDirCreate (acc : Ws) (p : Pth) : Ws :=
  if (acc.stat p).isNone then (acc.mkdir p true).2 else acc

/-- One best-effort directory deletion of `applyEntry`
(time_machine.js 380-389): only a current directory is deleted, and a
non-empty-directory error leaves the state unchanged (the source
`delete` throws before mutating in that case). -/
def applyDirDelete (acc : Ws) (p : Pth) : Ws :=
  match acc.stat p with
  | some (false, _) => (acc.del p).2
  | _ => acc

/-- `applyEntry` (time_machine.js 343-390): restore each file change's
`which` side, then create missing directories shallow-to-deep and
best-effort delete unwanted ones deep-to-shallow. -/
def applyEntry (ws : Ws) (blobs : List (Pth × Bytes)) (e : Entry)
    (which : Bool) : Ws :=
  let files := e.changes.filter (fun c => c.isFile)
  let dirs := e.changes.filter (fun c => ¬ c.isFile)
  let ws1 := files.foldl (applyFileChange blobs which) ws
  let toCreate := sortBy (fun a b => pathStrLen a ≤ pathStrLen b)
    ((dirs.filter (fun ch => ¬ isTimePath ch.path ∧
      (if which then ch.beforeExists else ch.afterExists))).map
        (fun ch => ch.path))
  let toDelete := sortBy (fun a b => pathStrLen b ≤ pathStrLen a)
    ((dirs.filter (fun ch => ¬ isTimePath ch.path ∧
      ¬ (if which then ch.beforeExists else ch.afterExists))).map
        (fun ch => ch.path))
  let ws2 := toCreate.foldl applyDirCreate ws1
  toDelete.foldl applyDirDelete ws2

/-- The per-path fold of a merge group's file changes (time_machine.js
237-254): first occurrence keeps its `before*` fields, later occurrences
overwrite the `after*` fields.  Insertion order is preserved as in a JS
`Map`. -/
def foldFileChange (m : List (Pth × Change)) (ch : Change) :
    List (Pth × Change) :=
  match alookup m ch.path with
  | none => m ++ [(ch.path, ch)]
  | some ex => (m.filter (fun kv => ¬ kv.1 = ch.path)) ++
      [(ch.path, { ex with
        afterExists := ch.afterExists, afterBlob := ch.afterBlob })]

/-- The per-path fold of dir changes (time_machine.js 255-262). -/
def foldDirChange (m : List (Pth × Change)) (ch : Change) :
    List (Pth × Change) :=
  match alookup m ch.path with
  | none => m ++ [(ch.path, ch)]
  | some ex => (m.filter (fun kv => ¬ kv.1 = ch.path)) ++
      [(ch.path, { ex with afterExists := ch.afterExists })]

/-- Collect the collapsed per-path records of a merge group
(time_machine.js 231-264). -/
def collectGroup (store : List (String × Entry)) (groupIds : List String) :
    List (Pth × Change) × List (Pth × Change) :=
  groupIds.foldl (fun acc id =>
    (loadEntry store id).changes.foldl (fun acc2 ch =>
      if isTimePath ch.path then acc2
      else if ch.isFile then (foldFileChange acc2.1 ch, acc2.2)
      else (acc2.1, foldDirChange acc2.2 ch)) acc) ([], [])

/-- Materialize merged file changes, dropping no-ops and re-targeting
blob paths at the merged id (time_machine.js 269-289). -/
def mergedFileChanges (blobs : List (Pth × Bytes)) (mergedId : String)
    (files : List (Pth × Change)) : List Change :=
  files.filterMap (fun kv =>
    let ch := kv.2
    let keep : Bool :=
      if ch.beforeExists = ch.afterExists then
        if ¬ ch.beforeExists then false
        else ¬ ((ch.beforeBlob.bind (alookup blobs)).getD [] =
          (ch.afterBlob.bind (alookup blobs)).getD [])
      else true
    if keep then
      some { ch with
        beforeBlob := if ch.beforeExists
          then some (blobPath mergedId true ch.path) else none,
        afterBlob := if ch.afterExists
          then some (blobPath mergedId false ch.path) else none }
    else none)

/-- Merged dir changes (time_machine.js 290-293). -/
def mergedDirChanges (dirs : List (Pth × Change)) : List Change :=
  dirs.filterMap (fun kv =>
    if kv.2.beforeExists = kv.2.afterExists then none else some kv.2)

/-- Copy surviving blobs under the merged id (time_machine.js 295-314). -/
def copyMergedBlobs (blobs : List (Pth × Bytes)) (mergedChanges : List Change)
    (files : List (Pth × Change)) : List (Pth × Bytes) :=
  mergedChanges.foldl (fun acc ch =>
    if ¬ ch.isFile = true then acc
    else
      let acc1 := if ch.beforeExists then
          match (alookup files ch.path).bind (fun ex => ex.beforeBlob) with
          | some src =>
            match alookup acc src, ch.beforeBlob with
            | some bytes, some bp => aset acc bp bytes
            | _, _ => acc
          | none => acc
        else acc
      if ch.afterExists then
        match (alookup files ch.path).bind (fun ex => ex.afterBlob) with
        | some src =>
          match alookup acc1 src, ch.afterBlob with
          | some bytes, some bp => aset acc1 bp bytes
          | _, _ => acc1
        | none => acc1
      else acc1) blobs

/-- One compaction pass plus the loop (time_machine.js 216-340); `fuel`
bounds the `while` (each pass shortens the log, so the initial log
length always suffices), and `ids` supplies the freshly minted merged
ids. -/
def compactLoop (keepRecent maxEntries mergeGroup : Nat) :
    Nat → Tm → List String → Tm
  | 0, t, _ => t
  | fuel + 1, t, ids =>
    if ¬ maxEntries < t.state.entries.length then t
    else
      let mergeable := t.state.entries.length - keepRecent
      if mergeable < 2 then t
      else
        let groupSize := min mergeGroup mergeable
        if groupSize < 2 then t
        else
          let group := t.state.entries.take groupSize
          let groupIds := group.map (fun s => s.id)
          let mergedId := ids.head?.getD "merged"
          let fd := collectGroup t.entryStore groupIds
          let mergedChanges :=
            mergedFileChanges t.blobs mergedId fd.1 ++ mergedDirChanges fd.2
          let blobs1 := copyMergedBlobs t.blobs mergedChanges fd.1
          let store1 := aset t.entryStore mergedId ⟨mergedId, mergedChanges⟩
          let entries1 := (⟨mergedId⟩ : Summary) :: t.state.entries.drop groupSize
          let cursor1 := min entries1.length (t.state.cursor - (groupSize - 1))
          let st1 : TmState :=
            { t.state with entries := entries1, cursor := cursor1 }
          let t1 : Tm := { state := st1, entryStore := store1, blobs := blobs1 }
          let t2 := groupIds.foldl deleteEntryT t1
          compactLoop keepRecent maxEntries mergeGroup fuel t2 ids.tail

/-- `compactIfNeeded` (time_machine.js 211-341) with the retention
clamps of lines 212-214. -/
def compactIfNeeded (t : Tm) (ids : List String) : Tm :=
  let keepRecent := if t.state.keepRecent = 0 then 50 else t.state.keepRecent
  let maxEntries := max 1 (if t.state.maxEntries = 0 then 200 else t.state.maxEntries)
  let mergeGroup := max 2 (if t.state.mergeGroup = 0 then 5 else t.state.mergeGroup)
  compactLoop keepRecent maxEntries mergeGroup t.state.entries.length t ids

/-- The snapshot arguments of `timeRecord`. -/
structure RecordArgs where
  beforeFiles : List (Pth × Bytes)
  afterFiles : List (Pth × Bytes)
  beforeDirs : List Pth
  afterDirs : List Pth
  deriving Repr

/-- `timeRecord` (time_machine.js 406-448).  Returns the persistent
state after the call and whether an entry was recorded.  On the
no-change early return the source has already deleted any redo tail's
entry JSONs and blobs but never writes the updated `state.json`, so the
returned `state` is the original one. -/
def timeRecord (t : Tm) (args : RecordArgs) (id : String)
    (cids : List String) : Tm × Bool :=
  let st := clampState t.state
  let redo := st.entries.drop st.cursor
  let t1 := redo.foldl (fun acc e => deleteEntryT acc e.id) t
  let entries1 := st.entries.take st.cursor
  let fileChanges := computeFileChanges args.beforeFiles args.afterFiles id
  let dirChanges := computeDirChanges args.beforeDirs args.afterDirs
  let changes := fileChanges ++ dirChanges
  if changes.isEmpty then ({ t1 with state := t.state }, false)
  else
    let blobs1 := writeBlobs t1.blobs fileChanges args.beforeFiles args.afterFiles
    let store1 := aset t1.entryStore id ⟨id, changes⟩
    let entries2 := entries1 ++ [⟨id⟩]
    let st1 : TmState := { st with entries := entries2, cursor := entries2.length }
    let t2 : Tm := { state := st1, entryStore := store1, blobs := blobs1 }
    (compactIfNeeded t2 cids, true)

/-- The `timeUndo` step loop (time_machine.js 469-476). -/
def undoLoop (entries : List Summary) (store : List (String × Entry))
    (blobs : List (Pth × Bytes)) :
    Nat → Nat → Ws → Nat → Nat × Ws × Nat
  | 0, cursor, ws, did => (cursor, ws, did)
  | n + 1, cursor, ws, did =>
    if cursor = 0 then (cursor, ws, did)
    else
      let sid := ((entries.getD (cursor - 1) ⟨""⟩).id)
      undoLoop entries store blobs n (cursor - 1)
        (applyEntry ws blobs (loadEntry store sid) true) (did + 1)

/-- `timeUndo` (time_machine.js 464-479): clamp the step count like
`Math.max(1, Math.min(1000, steps || 1))`, walk down, save the cursor. -/
def timeUndo (t : Tm) (ws : Ws) (steps : Nat) : Tm × Ws × Nat :=
  let st := clampState t.state
  let n := max 1 (min 1000 (if steps = 0 then 1 else steps))
  let r := undoLoop st.entries t.entryStore t.blobs n st.cursor ws 0
  ({ t with state := { st with cursor := r.1 } }, r.2.1, r.2.2)

/-- The `timeRedo` step loop (time_machine.js 486-492). -/
def redoLoop (entries : List Summary) (store : List (String × Entry))
    (blobs : List (Pth × Bytes)) :
    Nat → Nat → Ws → Nat → Nat × Ws × Nat
  | 0, cursor, ws, did => (cursor, ws, did)
  | n + 1, cursor, ws, did =>
    if entries.length ≤ cursor then (cursor, ws, did)
    else
      let sid := ((entries.getD cursor ⟨""⟩).id)
      redoLoop entries store blobs n (cursor + 1)
        (applyEntry ws blobs (loadEntry store sid) false) (did + 1)

/-- `timeRedo` (time_machine.js 481-495). -/
def timeRedo (t : Tm) (ws : Ws) (steps : Nat) : Tm × Ws × Nat :=
  let st := clampState t.state
  let n := max 1 (min 1000 (if steps = 0 then 1 else steps))
  let r := redoLoop st.entries t.entryStore t.blobs n st.cursor ws 0
  ({ t with state := { st with cursor := r.1 } }, r.2.1, r.2.2)

/-- `timeRestore` (time_machine.js 497-519): locate the id, undo down or
redo up to `index + 1`; an unknown id returns `ok: false` without
saving.  The loops run exactly `|cursor - (idx+1)|` steps, which the
fuelled `undoLoop`/`redoLoop` reproduce (their boundary guards can never
fire first). -/
def timeRestore (t : Tm) (ws : Ws) (target : String) : Tm × Ws × Bool :=
  let st := clampState t.state
  let idx := st.entries.findIdx (fun e => e.id = target)
  if idx = st.entries.length then (t, ws, false)
  else
    let down := undoLoop st.entries t.entryStore t.blobs
      (st.cursor - (idx + 1)) st.cursor ws 0
    let up := redoLoop st.entries t.entryStore t.blobs
      ((idx + 1) - down.1) down.1 down.2.1 0
    ({ t with state := { st with cursor := up.1 } }, up.2.1, true)

/-! ## Results: cursor invariants (C3) -/

theorem foldDeleteSummaries_state (l : List Summary) (t : Tm) :
    (l.foldl (fun acc e => deleteEntryT acc e.id) t).state = t.state := by
  induction l generalizing t with
  | nil => rfl
  | cons e rest ih => rw [List.foldl_cons]; exact ih _

theorem foldDeleteIds_state (l : List String) (t : Tm) :
    (l.foldl deleteEntryT t).state = t.state := by
  induction l generalizing t with
  | nil => rfl
  | cons e rest ih => rw [List.foldl_cons]; exact ih _

theorem compactLoop_cursor (kr me mg : Nat) :
    ∀ (fuel : Nat) (t : Tm) (ids : List String),
    (t.state.cursor ≤ t.state.entries.length →
      (compactLoop kr me mg fuel t ids).state.cursor ≤
        (compactLoop kr me mg fuel t ids).state.entries.length) ∧
    (t.state.cursor = t.state.entries.length →
      (compactLoop kr me mg fuel t ids).state.cursor =
        (compactLoop kr me mg fuel t ids).state.entries.length) := by
  intro fuel
  induction fuel with
  | zero => exact fun t ids => ⟨id, id⟩
  | succ fuel ih =>
    intro t ids
    rw [compactLoop]
    dsimp only []
    split
    · exact ⟨id, id⟩
    · split
      · exact ⟨id, id⟩
      · split
        · exact ⟨id, id⟩
        · next hover hmge hgrp =>
          simp only [not_lt, not_le] at hover hmge hgrp
          set g := min mg (t.state.entries.length - kr) with hg
          have hstate := foldDeleteIds_state
            ((t.state.entries.take g).map (fun s => s.id))
          constructor
          · intro _
            refine (ih _ _).1 ?_
            rw [hstate]
            simp only [List.length_cons, List.length_drop]
            exact Nat.min_le_left _ _
          · intro hcur
            refine (ih _ _).2 ?_
            rw [hstate]
            simp only [List.length_cons, List.length_drop]
            have hg2 : 2 ≤ g := hgrp
            have hgle : g ≤ t.state.entries.length := by
              have := Nat.min_le_right mg (t.state.entries.length - kr)
              omega
            rw [hcur]
            omega

theorem undoLoop_cursor_le (entries : List Summary)
    (store : List (String × Entry)) (blobs : List (Pth × Bytes)) :
    ∀ (n cursor : Nat) (ws : Ws) (did : Nat),
    (undoLoop entries store blobs n cursor ws did).1 ≤ cursor := by
  intro n
  induction n with
  | zero => intro cursor ws did; exact Nat.le_refl _
  | succ n ih =>
    intro cursor ws did
    rw [undoLoop]
    split
    · exact Nat.le_refl _
    · exact Nat.le_trans (ih _ _ _) (Nat.sub_le _ _)

theorem redoLoop_cursor_le (entries : List Summary)
    (store : List (String × Entry)) (blobs : List (Pth × Bytes)) :
    ∀ (n cursor : Nat) (ws : Ws) (did : Nat),
    cursor ≤ entries.length →
    (redoLoop entries store blobs n cursor ws did).1 ≤ entries.length := by
  intro n
  induction n with
  | zero => intro cursor ws did h; exact h
  | succ n ih =>
    intro cursor ws did h
    rw [redoLoop]
    split
    · exact h
    · next hlt =>
      simp only [not_le] at hlt
      exact ih _ _ _ hlt

/-- C3: the Time Machine cursor stays within `[0, entries.length]` under
`timeRecord`, `timeUndo`, `timeRedo` and `timeRestore` (the lower bound
is by type), and any `timeRecord` call that records an entry — after the
redo tail is discarded and even when compaction runs inside it — leaves
the cursor equal to `entries.length`. -/
theorem c3_cursor_range :
    (∀ (t : Tm) (args : RecordArgs) (id : String) (cids : List String),
      t.state.cursor ≤ t.state.entries.length →
      (timeRecord t args id cids).1.state.cursor ≤
        (timeRecord t args id cids).1.state.entries.length) ∧
    (∀ (t : Tm) (args : RecordArgs) (id : String) (cids : List String),
      (timeRecord t args id cids).2 = true →
      (timeRecord t args id cids).1.state.cursor =
        (timeRecord t args id cids).1.state.entries.length) ∧
    (∀ (t : Tm) (ws : Ws) (steps : Nat),
      (timeUndo t ws steps).1.state.cursor ≤
        (timeUndo t ws steps).1.state.entries.length) ∧
    (∀ (t : Tm) (ws : Ws) (steps : Nat),
      (timeRedo t ws steps).1.state.cursor ≤
        (timeRedo t ws steps).1.state.entries.length) ∧
    (∀ (t : Tm) (ws : Ws) (target : String),
      t.state.cursor ≤ t.state.entries.length →
      (timeRestore t ws target).1.state.cursor ≤
        (timeRestore t ws target).1.state.entries.length) := by
  refine ⟨?_, ?_, ?_, ?_, ?_⟩
  · intro t args id cids h
    rw [timeRecord]
    dsimp only []
    split
    · exact h
    · refine (compactLoop_cursor _ _ _ _ _ _).1 ?_
      exact Nat.le_refl _
  · intro t args id cids hrec
    rw [timeRecord] at hrec ⊢
    dsimp only [] at hrec ⊢
    split at hrec
    · simp at hrec
    · next hne =>
      rw [if_neg hne]
      exact (compactLoop_cursor _ _ _ _ _ _).2 rfl
  · intro t ws steps
    rw [timeUndo]
    dsimp only []
    refine Nat.le_trans (undoLoop_cursor_le _ _ _ _ _ _ _) ?_
    exact Nat.min_le_left _ _
  · intro t ws steps
    rw [timeRedo]
    dsimp only []
    exact redoLoop_cursor_le _ _ _ _ _ _ _ (Nat.min_le_left _ _)
  · intro t ws target h
    rw [timeRestore]
    dsimp only []
    split
    · exact h
    · refine redoLoop_cursor_le _ _ _ _ _ _ _ ?_
      refine Nat.le_trans (undoLoop_cursor_le _ _ _ _ _ _ _) ?_
      exact Nat.min_le_left _ _

/-- Witness for C3 on the concrete one-entry record from the empty
history (the benign `/a` write), followed by an undo and a restore. -/
theorem c3_cursor_range_witness :
    ((timeRecord ⟨⟨0, [], 0, 0, 0⟩, [], []⟩
        ⟨[(["a"], [1])], [(["a"], [2])], [[]], [[]]⟩ "e1" []).1.state.cursor ≤
      (timeRecord ⟨⟨0, [], 0, 0, 0⟩, [], []⟩
        ⟨[(["a"], [1])], [(["a"], [2])], [[]], [[]]⟩ "e1" []).1.state.entries.length) ∧
    ((timeRecord ⟨⟨0, [], 0, 0, 0⟩, [], []⟩
        ⟨[(["a"], [1])], [(["a"], [2])], [[]], [[]]⟩ "e1" []).1.state.cursor =
      (timeRecord ⟨⟨0, [], 0, 0, 0⟩, [], []⟩
        ⟨[(["a"], [1])], [(["a"], [2])], [[]], [[]]⟩ "e1" []).1.state.entries.length) ∧
    ((timeUndo ⟨⟨1, [⟨"e1"⟩], 0, 0, 0⟩, [], []⟩ Ws.empty 1).1.state.cursor ≤
      (timeUndo ⟨⟨1, [⟨"e1"⟩], 0, 0, 0⟩, [], []⟩ Ws.empty 1).1.state.entries.length) ∧
    ((timeRestore ⟨⟨1, [⟨"e1"⟩], 0, 0, 0⟩, [], []⟩ Ws.empty "e1").1.state.cursor ≤
      (timeRestore ⟨⟨1, [⟨"e1"⟩], 0, 0, 0⟩, [], []⟩ Ws.empty "e1").1.state.entries.length) := by
  have h := c3_cursor_range
  exact ⟨h.1 _ _ "e1" [] (by decide),
    h.2.1 _ _ "e1" [] (by decide),
    h.2.2.1 _ Ws.empty 1,
    h.2.2.2.2 _ Ws.empty "e1" (by decide)⟩

/-! ## Results: undo/redo round trip (C4) and restore (C5) -/

/-- A history with one recorded entry whose snapshots describe a real
workspace transition made of two workspace operations —
`delete("/d")` (an empty directory) followed by `writeFile("/d", ...)` —
snapshotted exactly as `timeRecord`'s contract asks: partial file maps
covering the changed path, full before/after directory sets
(time_machine.js 400-405). -/
def c4Tm : Tm := (timeRecord ⟨⟨0, [], 0, 0, 0⟩, [], []⟩
  ⟨[], [(["d"], [9])], [[], ["d"]], [[]]⟩ "ex" []).1

/-- The head workspace of that history: file `/d`, no directory `/d`. -/
def c4WsHead : Ws := ⟨[(["d"], [9])], [[]]⟩

/-- C4 counterexample: from the head, `undo(1); redo(1)` restores the
file mapping but not the directory set.  The redo's best-effort
directory deletion of `/d` (time_machine.js 379-389) is skipped because
`stat("/d")` now reports the re-created *file*, so the directory `/d`
created by the undo survives: the directory set is not byte-identical. -/
theorem c4_round_trip_stale_dir :
    (timeRecord ⟨⟨0, [], 0, 0, 0⟩, [], []⟩
      ⟨[], [(["d"], [9])], [[], ["d"]], [[]]⟩ "ex" []).2 = true ∧
    c4Tm.state.cursor = 1 ∧ c4Tm.state.entries.length = 1 ∧
    ((timeRedo (timeUndo c4Tm c4WsHead 1).1
        (timeUndo c4Tm c4WsHead 1).2.1 1).2.1.lookupFile ["d"]
      = c4WsHead.lookupFile ["d"]) ∧
    c4WsHead.hasDir ["d"] = false ∧
    (timeRedo (timeUndo c4Tm c4WsHead 1).1
      (timeUndo c4Tm c4WsHead 1).2.1 1).2.1.hasDir ["d"] = true := by
  decide

/-- C5 counterexample: with the same entry undone (cursor 0),
`restore("ex")` terminates with the cursor at `index+1 = 1` — that part
of the claim holds — but the workspace is not the entry's "after" state:
the after state has no directory `/d`, while the redo performed by the
restore leaves the stale directory `/d` behind. -/
theorem c5_restore_stale_dir :
    (timeRestore (timeUndo c4Tm c4WsHead 1).1
      (timeUndo c4Tm c4WsHead 1).2.1 "ex").2.2 = true ∧
    (timeRestore (timeUndo c4Tm c4WsHead 1).1
      (timeUndo c4Tm c4WsHead 1).2.1 "ex").1.state.cursor = 1 ∧
    (timeRestore (timeUndo c4Tm c4WsHead 1).1
      (timeUndo c4Tm c4WsHead 1).2.1 "ex").2.1.lookupFile ["d"] = some [9] ∧
    c4WsHead.hasDir ["d"] = false ∧
    (timeRestore (timeUndo c4Tm c4WsHead 1).1
      (timeUndo c4Tm c4WsHead 1).2.1 "ex").2.1.hasDir ["d"] = true := by
  decide

/-! ## Replay correctness machinery for C4/C5 -/

theorem find?_key_filter_ne [DecidableEq κ] (l : List (κ × β)) (k q : κ)
    (hne : ¬ q = k) :
    (l.filter (fun kv => ¬ kv.1 = k)).find? (fun kv => kv.1 = q) =
      l.find? (fun kv => kv.1 = q) := by
  induction l with
  | nil => rfl
  | cons kv rest ih =>
    by_cases hk : kv.1 = k
    · rw [List.filter_cons, if_neg (by simp [hk])]
      have hkvq : (decide (kv.1 = q)) = false := by
        simp only [decide_eq_false_iff_not, hk]
        exact fun hx => hne hx.symm
      rw [ih]
      simp only [List.find?_cons, hkvq]
    · rw [List.filter_cons, if_pos (by simpa using hk)]
      simp only [List.find?_cons]
      cases hkq : (decide (kv.1 = q)) with
      | true => rfl
      | false => rw [ih]

theorem alookup_aset [DecidableEq κ] (l : List (κ × β)) (k : κ) (v : β)
    (q : κ) : alookup (aset l k v) q = if q = k then some v else alookup l q := by
  rw [aset, alookup]
  by_cases hq : q = k
  · subst hq
    simp [List.find?_cons]
  · rw [if_neg hq]
    have hkv : (decide ((k, v).1 = q)) = false := by
      simp only [decide_eq_false_iff_not]
      exact fun hx => hq hx.symm
    simp only [List.find?_cons, hkv]
    rw [alookup, find?_key_filter_ne l k q hq]

theorem alookup_afilter_ne [DecidableEq κ] (l : List (κ × β)) (k q : κ)
    (hne : ¬ q = k) :
    alookup (l.filter (fun kv => ¬ kv.1 = k)) q = alookup l q := by
  rw [alookup, alookup, find?_key_filter_ne l k q hne]

theorem lookupFile_eq_alookup (w : Ws) (p : Pth) :
    w.lookupFile p = alookup w.files p := rfl

theorem lookup_setFile (w : Ws) (p : Pth) (v : Bytes) (q : Pth) :
    (w.setFile p v).lookupFile q = if q = p then some v else w.lookupFile q :=
  alookup_aset w.files p v q

theorem lookup_removeFile (w : Ws) (p q : Pth) (hne : ¬ q = p) :
    (w.removeFile p).lookupFile q = w.lookupFile q :=
  alookup_afilter_ne w.files p q hne

theorem lookup_removeFile_self (w : Ws) (p : Pth) :
    (w.removeFile p).lookupFile p = none := by
  rw [Ws.lookupFile]
  rcases hfind : (w.removeFile p).files.find? (fun kv => kv.1 = p) with _ | kv
  · rw [hfind]
    rfl
  · have hmem := List.mem_of_find?_eq_some hfind
    have hok := List.find?_some hfind
    rw [Ws.removeFile] at hmem
    have h2 := (List.mem_filter.1 hmem).2
    simp only [decide_eq_true_eq] at hok
    rw [hok] at h2
    simp at h2

theorem hasDir_iff (w : Ws) (p : Pth) : w.hasDir p = true ↔ p ∈ w.dirs := by
  rw [Ws.hasDir]
  exact List.elem_iff

theorem lookup_writeFile_true (w : Ws) (p : Pth) (v : Bytes) (q : Pth) :
    (w.writeFile p v true).2.lookupFile q =
      if q = p then some v else w.lookupFile q := by
  rw [Ws.writeFile]
  rw [if_neg (by simp)]
  exact lookup_setFile _ p v q

theorem dirs_writeFile_true (w : Ws) (p : Pth) (v : Bytes) (d : Pth) :
    d ∈ (w.writeFile p v true).2.dirs ↔
      d ∈ w.dirs ∨ d ∈ pathPrefixes (segDirname p) := by
  rw [Ws.writeFile]
  rw [if_neg (by simp)]
  exact mem_ensureDir

theorem files_mkdir_true (w : Ws) (p : Pth) :
    (w.mkdir p true).2.files = w.files := rfl

theorem dirs_mkdir_true (w : Ws) (p : Pth) (d : Pth) :
    d ∈ (w.mkdir p true).2.dirs ↔ d ∈ w.dirs ∨ d ∈ pathPrefixes p := by
  rw [Ws.mkdir]
  rw [if_neg (by simp)]
  exact mem_ensureDir

theorem stat_some_file {w : Ws} {p : Pth} {v : Bytes}
    (h : w.lookupFile p = some v) : w.stat p = some (true, v.length) := by
  rw [Ws.stat, h]

theorem stat_some_dir {w : Ws} {p : Pth} (h : w.lookupFile p = none)
    (hd : p ∈ w.dirs) : w.stat p = some (false, 0) := by
  rw [Ws.stat, h]
  rw [if_pos ((hasDir_iff w p).2 hd)]

theorem stat_none {w : Ws} {p : Pth} (h : w.lookupFile p = none)
    (hd : p ∉ w.dirs) : w.stat p = none := by
  rw [Ws.stat, h]
  rw [if_neg (fun hx => hd ((hasDir_iff w p).1 hx))]

theorem del_file {w : Ws} {p : Pth} (h : (w.lookupFile p).isSome) :
    (w.del p).2 = w.removeFile p := by
  rw [Ws.del]
  rw [if_pos (by rw [Ws.hasFile]; exact h)]

theorem files_any_iff (w : Ws) (p : Pth) :
    (w.files.any (fun kv => strictUnder p kv.1)) = true ↔
      ∃ f, (w.lookupFile f).isSome ∧ strictUnder p f = true := by
  rw [List.any_eq_true]
  constructor
  · rintro ⟨kv, hkv, hp⟩
    refine ⟨kv.1, ?_, hp⟩
    rw [Ws.lookupFile]
    rcases hfind : w.files.find? (fun x => decide (x.1 = kv.1)) with _ | x
    · have := List.find?_eq_none.1 hfind kv hkv
      simp at this
    · rw [hfind]
      rfl
  · rintro ⟨f, hsome, hp⟩
    rw [Ws.lookupFile] at hsome
    rcases hfind : w.files.find? (fun x => decide (x.1 = f)) with _ | x
    · rw [hfind] at hsome
      simp at hsome
    · have hmem := List.mem_of_find?_eq_some hfind
      have hok := List.find?_some hfind
      simp only [decide_eq_true_eq] at hok
      exact ⟨x, hmem, by rw [hok]; exact hp⟩

theorem del_dir_success {w : Ws} {p : Pth} (hf : w.lookupFile p = none)
    (hd : p ∈ w.dirs) (hroot : ¬ p = [])
    (hnofile : ∀ f, (w.lookupFile f).isSome → strictUnder p f = false)
    (hnodir : ∀ d ∈ w.dirs, ¬ d = p → strictUnder p d = false) :
    (w.del p).2 = { w with dirs := w.dirs.filter (fun d => ¬ d = p) } := by
  rw [Ws.del]
  rw [if_neg (by rw [Ws.hasFile, hf]; simp)]
  rw [if_pos ((hasDir_iff w p).2 hd)]
  rw [if_neg hroot]
  rw [if_neg (by
    intro hany
    obtain ⟨f, hsome, hp⟩ := (files_any_iff w p).1 hany
    rw [hnofile f hsome] at hp
    exact Bool.false_ne_true hp)]
  rw [if_neg (by
    intro hany
    obtain ⟨d, hdm, hcond⟩ := List.any_eq_true.1 hany
    simp only [decide_eq_true_eq] at hcond
    rw [hnodir d hdm hcond.1] at hcond
    exact Bool.false_ne_true hcond.2)]

theorem mem_dedupFirst [DecidableEq α] {l : List α} {x : α} :
    x ∈ dedupFirst l ↔ x ∈ l := by
  induction l with
  | nil => simp [dedupFirst]
  | cons y ys ih =>
    rw [dedupFirst, List.mem_cons, List.mem_cons]
    constructor
    · rintro (rfl | hx)
      · exact Or.inl rfl
      · exact Or.inr (ih.1 (List.mem_filter.1 hx).1)
    · rintro (rfl | hx)
      · exact Or.inl rfl
      · by_cases hxy : x = y
        · exact Or.inl hxy
        · refine Or.inr (List.mem_filter.2 ⟨ih.2 hx, by simpa using hxy⟩)

theorem nodup_dedupFirst [DecidableEq α] (l : List α) :
    (dedupFirst l).Nodup := by
  induction l with
  | nil => simp [dedupFirst]
  | cons y ys ih =>
    rw [dedupFirst]
    refine List.Nodup.cons ?_ (List.Nodup.filter _ ih)
    intro hy
    have := (List.mem_filter.1 hy).2
    simp at this

theorem insertSorted_perm (cmp : α → α → Bool) (x : α) (l : List α) :
    (insertSorted cmp x l).Perm (x :: l) := by
  induction l with
  | nil => exact List.Perm.refl _
  | cons y ys ih =>
    rw [insertSorted]
    split
    · exact List.Perm.refl _
    · exact ((ih.cons y).trans (List.Perm.swap x y ys))

theorem sortBy_perm (cmp : α → α → Bool) (l : List α) :
    (sortBy cmp l).Perm l := by
  induction l with
  | nil => exact List.Perm.refl _
  | cons y ys ih =>
    rw [sortBy, List.foldr_cons]
    rw [sortBy] at ih
    exact (insertSorted_perm cmp y _).trans (ih.cons y)

theorem filterMap_path_sublist (f : Pth → Option Change)
    (hf : ∀ p ch, f p = some ch → ch.path = p) :
    ∀ (keys : List Pth), ((keys.filterMap f).map Change.path).Sublist keys := by
  intro keys
  induction keys with
  | nil => simp
  | cons k ks ih =>
    rw [List.filterMap_cons]
    cases hfk : f k with
    | none => exact ih.cons k
    | some ch =>
      rw [List.map_cons, hf k ch hfk]
      exact ih.cons₂ k

theorem computeFileChanges_mem {bf af : List (Pth × Bytes)} {id : String}
    {ch : Change} (h : ch ∈ computeFileChanges bf af id) :
    ch.isFile = true ∧ isTimePath ch.path = false ∧
    ch.beforeExists = (alookup bf ch.path).isSome ∧
    ch.afterExists = (alookup af ch.path).isSome ∧
    ¬ alookup bf ch.path = alookup af ch.path ∧
    ch.beforeBlob = (if (alookup bf ch.path).isSome
      then some (blobPath id true ch.path) else none) ∧
    ch.afterBlob = (if (alookup af ch.path).isSome
      then some (blobPath id false ch.path) else none) := by
  rw [computeFileChanges] at h
  have h2 := (sortBy_perm _ _).mem_iff.1 h
  obtain ⟨p, hp, hf⟩ := List.mem_filterMap.1 h2
  by_cases ht : isTimePath p
  · rw [if_pos ht] at hf
    exact absurd hf (by simp)
  · rw [if_neg ht] at hf
    dsimp only [] at hf
    split at hf
    · exact absurd hf (by simp)
    · split at hf
      · exact absurd hf (by simp)
      · next hno hsame =>
        injection hf with hf
        subst hf
        refine ⟨rfl, by simpa using ht, rfl, rfl, ?_, rfl, rfl⟩
        intro heq
        rcases ha : (alookup bf p) with _ | va
        · refine hno ⟨?_, ?_⟩
          · rw [ha]
            simp
          · rw [← heq, ha]
            simp
        · refine hsame ⟨?_, ?_, heq⟩
          · rw [ha]
            rfl
          · rw [← heq, ha]
            rfl

theorem alookup_isSome_mem_keys [DecidableEq κ] {β : Type} {l : List (κ × β)}
    {k : κ} (h : (alookup l k).isSome) : k ∈ l.map (fun kv => kv.1) := by
  rw [alookup] at h
  rcases hfind : l.find? (fun kv => kv.1 = k) with _ | kv
  · rw [hfind] at h
    simp at h
  · have hmem := List.mem_of_find?_eq_some hfind
    have hok := List.find?_some hfind
    simp only [decide_eq_true_eq] at hok
    exact List.mem_map.2 ⟨kv, hmem, hok⟩

theorem computeFileChanges_cover {bf af : List (Pth × Bytes)} {id : String}
    {p : Pth} (ht : isTimePath p = false)
    (hne : ¬ alookup bf p = alookup af p) :
    (⟨true, p, (alookup bf p).isSome, (alookup af p).isSome,
      if (alookup bf p).isSome then some (blobPath id true p) else none,
      if (alookup af p).isSome then some (blobPath id false p) else none⟩ : Change)
      ∈ computeFileChanges bf af id := by
  have hsome : ((alookup bf p).isSome = true) ∨ ((alookup af p).isSome = true) := by
    rcases ha : alookup bf p with _ | va
    · rcases hb : alookup af p with _ | vb
      · rw [ha, hb] at hne
        exact absurd rfl hne
      · exact Or.inr rfl
    · exact Or.inl rfl
  have hkey : p ∈ dedupFirst (bf.map (fun kv => kv.1) ++ af.map (fun kv => kv.1)) := by
    rw [mem_dedupFirst, List.mem_append]
    rcases hsome with h1 | h2
    · exact Or.inl (alookup_isSome_mem_keys h1)
    · exact Or.inr (alookup_isSome_mem_keys h2)
  rw [computeFileChanges]
  refine (sortBy_perm _ _).mem_iff.2 ?_
  refine List.mem_filterMap.2 ⟨p, hkey, ?_⟩
  rw [if_neg (by simp [ht])]
  dsimp only []
  rw [if_neg (by
    rintro ⟨h1, h2⟩
    rcases hsome with h3 | h4
    · exact h1 h3
    · exact h2 h4)]
  rw [if_neg (by
    rintro ⟨h1, h2, h3⟩
    exact hne h3)]

theorem computeFileChanges_nodup (bf af : List (Pth × Bytes)) (id : String) :
    ((computeFileChanges bf af id).map Change.path).Nodup := by
  rw [computeFileChanges]
  refine ((sortBy_perm _ _).map Change.path).nodup_iff.2 ?_
  refine List.Sublist.nodup (filterMap_path_sublist _ ?_ _) (nodup_dedupFirst _)
  intro p ch hf
  by_cases ht : isTimePath p
  · rw [if_pos ht] at hf
    exact absurd hf (by simp)
  · rw [if_neg ht] at hf
    dsimp only [] at hf
    split at hf
    · exact absurd hf (by simp)
    · split at hf
      · exact absurd hf (by simp)
      · injection hf with hf
        subst hf
        rfl

theorem computeDirChanges_mem {bd ad : List Pth} {ch : Change}
    (h : ch ∈ computeDirChanges bd ad) :
    ch.isFile = false ∧ ¬ ch.path = [] ∧ isTimePath ch.path = false ∧
    ch.beforeBlob = none ∧ ch.afterBlob = none ∧
    ((ch.beforeExists = true ∧ ch.afterExists = false ∧
        ch.path ∈ bd ∧ ch.path ∉ ad) ∨
      (ch.beforeExists = false ∧ ch.afterExists = true ∧
        ch.path ∈ ad ∧ ch.path ∉ bd)) := by
  rw [computeDirChanges] at h
  rcases List.mem_append.1 h with h1 | h2
  · obtain ⟨d, hd, hf⟩ := List.mem_filterMap.1 h1
    split at hf
    · exact absurd hf (by simp)
    · split at hf
      · exact absurd hf (by simp)
      · split at hf
        · exact absurd hf (by simp)
        · next hroot ht hafter =>
          injection hf with hf
          subst hf
          refine ⟨rfl, hroot, by simpa using ht, rfl, rfl, Or.inl ⟨rfl, rfl, ?_, ?_⟩⟩
          · exact mem_dedupFirst.1 hd
          · intro hmem
            exact hafter (by
              rw [List.elem_iff]
              exact mem_dedupFirst.2 hmem)
  · obtain ⟨d, hd, hf⟩ := List.mem_filterMap.1 h2
    split at hf
    · exact absurd hf (by simp)
    · split at hf
      · exact absurd hf (by simp)
      · split at hf
        · exact absurd hf (by simp)
        · next hroot ht hbefore =>
          injection hf with hf
          subst hf
          refine ⟨rfl, hroot, by simpa using ht, rfl, rfl, Or.inr ⟨rfl, rfl, ?_, ?_⟩⟩
          · exact mem_dedupFirst.1 hd
          · intro hmem
            exact hbefore (by
              rw [List.elem_iff]
              exact mem_dedupFirst.2 hmem)

theorem computeDirChanges_cover_before {bd ad : List Pth} {d : Pth}
    (hroot : ¬ d = []) (ht : isTimePath d = false)
    (hin : d ∈ bd) (hout : d ∉ ad) :
    (⟨false, d, true, false, none, none⟩ : Change) ∈ computeDirChanges bd ad := by
  rw [computeDirChanges]
  refine List.mem_append.2 (Or.inl ?_)
  refine List.mem_filterMap.2 ⟨d, mem_dedupFirst.2 hin, ?_⟩
  rw [if_neg hroot, if_neg (by simp [ht]),
    if_neg (by
      rw [List.elem_iff]
      intro hmem
      exact hout (mem_dedupFirst.1 hmem))]

theorem computeDirChanges_cover_after {bd ad : List Pth} {d : Pth}
    (hroot : ¬ d = []) (ht : isTimePath d = false)
    (hin : d ∈ ad) (hout : d ∉ bd) :
    (⟨false, d, false, true, none, none⟩ : Change) ∈ computeDirChanges bd ad := by
  rw [computeDirChanges]
  refine List.mem_append.2 (Or.inr ?_)
  refine List.mem_filterMap.2 ⟨d, mem_dedupFirst.2 hin, ?_⟩
  rw [if_neg hroot, if_neg (by simp [ht]),
    if_neg (by
      rw [List.elem_iff]
      intro hmem
      exact hout (mem_dedupFirst.1 hmem))]

theorem computeDirChanges_nodup (bd ad : List Pth) :
    ((computeDirChanges bd ad).map Change.path).Nodup := by
  rw [computeDirChanges, List.map_append]
  have hinv : ∀ (other : List Pth) (c1 c2 : Bool) (p : Pth) (ch : Change),
      (if p = [] then none
       else if isTimePath p then none
       else if other.contains p then none
       else some (⟨false, p, c1, c2, none, none⟩ : Change)) = some ch →
      ch.path = p ∧ ¬ other.contains p = true := by
    intro other c1 c2 p ch hf
    split at hf
    · exact absurd hf (by simp)
    · split at hf
      · exact absurd hf (by simp)
      · split at hf
        · exact absurd hf (by simp)
        · next hc =>
          injection hf with hf
          subst hf
          exact ⟨rfl, hc⟩
  refine List.Nodup.append ?_ ?_ ?_
  · refine List.Sublist.nodup (filterMap_path_sublist _ ?_ _) (nodup_dedupFirst bd)
    intro p ch hf
    exact (hinv _ _ _ p ch hf).1
  · refine List.Sublist.nodup (filterMap_path_sublist _ ?_ _) (nodup_dedupFirst ad)
    intro p ch hf
    exact (hinv _ _ _ p ch hf).1
  · intro x hx1 hx2
    obtain ⟨ch1, hch1, hpx1⟩ := List.mem_map.1 hx1
    obtain ⟨ch2, hch2, hpx2⟩ := List.mem_map.1 hx2
    obtain ⟨d1, hd1, hf1⟩ := List.mem_filterMap.1 hch1
    obtain ⟨d2, hd2, hf2⟩ := List.mem_filterMap.1 hch2
    obtain ⟨he1, hc1⟩ := hinv _ _ _ _ _ hf1
    obtain ⟨he2, hc2⟩ := hinv _ _ _ _ _ hf2
    apply hc1
    rw [List.elem_iff]
    have hd1x : d1 = x := by rw [← he1, hpx1]
    have hd2x : d2 = x := by rw [← he2, hpx2]
    rw [hd1x, ← hd2x]
    exact hd2

/-- Extensional equality of the file mapping. -/
def filesEq (x W : Ws) : Prop := ∀ p, x.lookupFile p = W.lookupFile p

/-- Extensional equality of the directory set. -/
def dirsEq (x W : Ws) : Prop := ∀ d, d ∈ x.dirs ↔ d ∈ W.dirs

/-- Byte-identical workspace contents. -/
def wsLike (x W : Ws) : Prop := filesEq x W ∧ dirsEq x W

/-- The directory set is closed under ancestors. -/
def dirsClosed (W : Ws) : Prop :=
  ∀ d ∈ W.dirs, ∀ n ≤ d.length, d.take n ∈ W.dirs

/-- Every file's proper ancestors are directories (the C6 invariant,
extensionally). -/
def filesAnchored (W : Ws) : Prop :=
  ∀ p, (W.lookupFile p).isSome → ∀ n < p.length, p.take n ∈ W.dirs

/-- No path is both a file and a directory (spec §3 invariant (b)). -/
def coherentWs (W : Ws) : Prop := ∀ p, (W.lookupFile p).isSome → p ∉ W.dirs

/-- The user workspace holds nothing under `/.time`. -/
def noReservedWs (W : Ws) : Prop :=
  (∀ p, (W.lookupFile p).isSome → isTimePath p = false) ∧
  (∀ d ∈ W.dirs, isTimePath d = false)

/-- The workspace invariants the spec's data model postulates (§3),
which the replay hypotheses require of the states around each entry:
ancestor closure, file anchoring, file/dir coherence, no reserved
content, and a present root (the constructor seeds `dirs` with `"/"`
and `delete` refuses the root, so the root is always a directory). -/
def goodWs (W : Ws) : Prop :=
  dirsClosed W ∧ filesAnchored W ∧ coherentWs W ∧ noReservedWs W ∧
    [] ∈ W.dirs

/-- The snapshot quadruple `timeRecord` receives. -/
structure Snap where
  bf : List (Pth × Bytes)
  af : List (Pth × Bytes)
  bd : List Pth
  ad : List Pth

/-- The snapshots truthfully describe the transition `Wa → Wb`: where
the snapshot sides differ they carry the true values, every real file
difference is covered, and the dir lists are the two full dir sets. -/
def snapAgrees (s : Snap) (Wa Wb : Ws) : Prop :=
  (∀ p, ¬ alookup s.bf p = alookup s.af p →
    alookup s.bf p = Wa.lookupFile p ∧ alookup s.af p = Wb.lookupFile p) ∧
  (∀ p, isTimePath p = false → ¬ Wa.lookupFile p = Wb.lookupFile p →
    ¬ alookup s.bf p = alookup s.af p) ∧
  (∀ d, d ∈ s.bd ↔ d ∈ Wa.dirs) ∧ (∀ d, d ∈ s.ad ↔ d ∈ Wb.dirs)

/-- The stored entry `sid` is the record of a transition `Wa → Wb`:
its changes are exactly `timeRecord`'s change computation on truthful
snapshots, its blobs hold the corresponding bytes, no directory change
sits at a path that holds file bytes on the side that lacks the
directory (the proviso the C4/C5 counterexamples violate), and the two
surrounding states satisfy the workspace invariants. -/
def entryLinks (store : List (String × Entry)) (blobs : List (Pth × Bytes))
    (sid : String) (Wa Wb : Ws) : Prop :=
  ∃ s : Snap,
    alookup store sid = some ⟨sid,
      computeFileChanges s.bf s.af sid ++ computeDirChanges s.bd s.ad⟩ ∧
    snapAgrees s Wa Wb ∧
    (∀ p v, ¬ alookup s.bf p = alookup s.af p → Wa.lookupFile p = some v →
      alookup blobs (blobPath sid true p) = some v) ∧
    (∀ p v, ¬ alookup s.bf p = alookup s.af p → Wb.lookupFile p = some v →
      alookup blobs (blobPath sid false p) = some v) ∧
    (∀ d, ¬ d = [] → isTimePath d = false → ¬ (d ∈ Wa.dirs ↔ d ∈ Wb.dirs) →
      Wa.lookupFile d = none ∧ Wb.lookupFile d = none) ∧
    goodWs Wa ∧ goodWs Wb

theorem stat_dir_lookup {w : Ws} {p : Pth} {sz : Nat}
    (h : w.stat p = some (false, sz)) : w.lookupFile p = none := by
  rcases hl : w.lookupFile p with _ | u
  · rfl
  · rw [Ws.stat, hl] at h
    simp at h

theorem stat_none_lookup {w : Ws} {p : Pth} (h : w.stat p = none) :
    w.lookupFile p = none := by
  rcases hl : w.lookupFile p with _ | u
  · rfl
  · rw [Ws.stat, hl] at h
    simp at h

theorem applyFileChange_spec (blobs : List (Pth × Bytes)) (which : Bool)
    (W : Ws) (acc : Ws) (ch : Change)
    (ht : isTimePath ch.path = false)
    (hflag : (if which then ch.beforeExists else ch.afterExists) =
      (W.lookupFile ch.path).isSome)
    (hblob : ∀ v, W.lookupFile ch.path = some v →
      ∃ bp, (if which then ch.beforeBlob else ch.afterBlob) = some bp ∧
        alookup blobs bp = some v) :
    ((applyFileChange blobs which acc ch).lookupFile ch.path =
      W.lookupFile ch.path) ∧
    (∀ q, ¬ q = ch.path →
      (applyFileChange blobs which acc ch).lookupFile q = acc.lookupFile q) ∧
    (∀ d, d ∈ (applyFileChange blobs which acc ch).dirs ↔
      d ∈ acc.dirs ∨ ((W.lookupFile ch.path).isSome = true ∧
        d ∈ pathPrefixes (segDirname ch.path))) := by
  rw [applyFileChange]
  rw [if_neg (by simp [ht])]
  rcases hW : W.lookupFile ch.path with _ | v
  · rw [hW] at hflag
    rw [if_neg (by simp [hflag])]
    rcases hstat : acc.stat ch.path with _ | st
    · exact ⟨stat_none_lookup hstat, fun q hq => rfl, fun d => by simp⟩
    · rcases st with ⟨isf, sz⟩
      cases isf
      · exact ⟨stat_dir_lookup hstat, fun q hq => rfl, fun d => by simp⟩
      · have hsome : (acc.lookupFile ch.path).isSome := stat_file_lookup hstat
        rw [del_file hsome]
        exact ⟨lookup_removeFile_self acc ch.path,
          fun q hq => lookup_removeFile acc ch.path q hq,
          fun d => by simp [Ws.removeFile]⟩
  · obtain ⟨bp, hbp, hlook⟩ := hblob v hW
    rw [hW] at hflag
    rw [if_pos (by simp [hflag])]
    simp only [hbp, hlook]
    refine ⟨?_, ?_, ?_⟩
    · rw [lookup_writeFile_true, if_pos rfl]
    · intro q hq
      rw [lookup_writeFile_true, if_neg hq]
    · intro d
      rw [dirs_writeFile_true]
      simp

theorem filePhase_spec (blobs : List (Pth × Bytes)) (which : Bool) (W : Ws) :
    ∀ (chs : List Change) (acc : Ws),
    (chs.map Change.path).Nodup →
    (∀ ch ∈ chs, isTimePath ch.path = false ∧
      (if which then ch.beforeExists else ch.afterExists) =
        (W.lookupFile ch.path).isSome ∧
      (∀ v, W.lookupFile ch.path = some v →
        ∃ bp, (if which then ch.beforeBlob else ch.afterBlob) = some bp ∧
          alookup blobs bp = some v)) →
    (∀ ch ∈ chs, (chs.foldl (applyFileChange blobs which) acc).lookupFile ch.path
        = W.lookupFile ch.path) ∧
    (∀ q, (∀ ch ∈ chs, ¬ ch.path = q) →
      (chs.foldl (applyFileChange blobs which) acc).lookupFile q =
        acc.lookupFile q) ∧
    (∀ d, d ∈ (chs.foldl (applyFileChange blobs which) acc).dirs ↔
      d ∈ acc.dirs ∨ ∃ ch ∈ chs, (W.lookupFile ch.path).isSome = true ∧
        d ∈ pathPrefixes (segDirname ch.path)) := by
  intro chs
  induction chs with
  | nil =>
    intro acc _ _
    exact ⟨fun ch hch => absurd hch (by simp),
      fun q _ => rfl, fun d => by simp⟩
  | cons ch rest ih =>
    intro acc hnodup hprops
    obtain ⟨ht, hflag, hblob⟩ := hprops ch (List.mem_cons_self _ _)
    obtain ⟨hstep1, hstep2, hstep3⟩ :=
      applyFileChange_spec blobs which W acc ch ht hflag hblob
    rw [List.map_cons, List.nodup_cons] at hnodup
    obtain ⟨hch_not, hnodup'⟩ := hnodup
    obtain ⟨ih1, ih2, ih3⟩ := ih (applyFileChange blobs which acc ch) hnodup'
      (fun c hc => hprops c (List.mem_cons_of_mem _ hc))
    rw [List.foldl_cons]
    refine ⟨?_, ?_, ?_⟩
    · intro c hc
      rcases List.mem_cons.1 hc with rfl | hc2
      · rw [ih2 c.path (fun c2 hc2 hpath => hch_not
          (hpath ▸ List.mem_map.2 ⟨c2, hc2, rfl⟩))]
        exact hstep1
      · exact ih1 c hc2
    · intro q hq
      rw [ih2 q (fun c2 hc2 => hq c2 (List.mem_cons_of_mem _ hc2))]
      exact hstep2 q (fun hqe => hq ch (List.mem_cons_self _ _) hqe.symm)
    · intro d
      rw [ih3 d, hstep3 d]
      constructor
      · rintro ((hd | hex) | ⟨c, hc, hcond⟩)
        · exact Or.inl hd
        · exact Or.inr ⟨ch, List.mem_cons_self _ _, hex⟩
        · exact Or.inr ⟨c, List.mem_cons_of_mem _ hc, hcond⟩
      · rintro (hd | ⟨c, hc, hcond⟩)
        · exact Or.inl (Or.inl hd)
        · rcases List.mem_cons.1 hc with rfl | hc2
          · exact Or.inl (Or.inr hcond)
          · exact Or.inr ⟨c, hc2, hcond⟩

theorem pathPrefixes_closed {p q : Pth} (h : q ∈ pathPrefixes p) :
    ∀ n ≤ q.length, q.take n ∈ pathPrefixes p := by
  rw [pathPrefixes] at h ⊢
  obtain ⟨m, hm, rfl⟩ := List.mem_map.1 h
  intro n hn
  refine List.mem_map.2 ⟨min n m, ?_, ?_⟩
  · rw [List.mem_range] at hm ⊢
    omega
  · rw [List.take_take]

theorem applyDirCreate_spec (acc : Ws) (p : Pth)
    (hnof : acc.lookupFile p = none)
    (hclosed : ∀ d ∈ acc.dirs, ∀ n ≤ d.length, d.take n ∈ acc.dirs) :
    ((applyDirCreate acc p).files = acc.files) ∧
    (∀ d, d ∈ (applyDirCreate acc p).dirs ↔
      d ∈ acc.dirs ∨ d ∈ pathPrefixes p) ∧
    (∀ d ∈ (applyDirCreate acc p).dirs, ∀ n ≤ d.length,
      d.take n ∈ (applyDirCreate acc p).dirs) := by
  rw [applyDirCreate]
  by_cases hstat : (acc.stat p).isNone
  · rw [if_pos hstat]
    refine ⟨files_mkdir_true acc p, fun d => dirs_mkdir_true acc p d, ?_⟩
    intro d hd n hn
    rcases (dirs_mkdir_true acc p d).1 hd with h1 | h2
    · exact (dirs_mkdir_true acc p _).2 (Or.inl (hclosed d h1 n hn))
    · exact (dirs_mkdir_true acc p _).2 (Or.inr (pathPrefixes_closed h2 n hn))
  · rw [if_neg hstat]
    have hmem : p ∈ acc.dirs := by
      by_cases hd2 : acc.hasDir p = true
      · exact (hasDir_iff acc p).1 hd2
      · exfalso
        apply hstat
        rw [stat_none hnof (fun hm => hd2 ((hasDir_iff acc p).2 hm))]
        rfl
    refine ⟨rfl, fun d => ?_, hclosed⟩
    constructor
    · exact Or.inl
    · rintro (hd | hd)
      · exact hd
      · rw [pathPrefixes] at hd
        obtain ⟨n, hn, rfl⟩ := List.mem_map.1 hd
        exact hclosed p hmem n (by
          rw [List.mem_range] at hn
          omega)

theorem createPhase_spec :
    ∀ (ps : List Pth) (acc : Ws),
    (∀ p ∈ ps, acc.lookupFile p = none) →
    (∀ d ∈ acc.dirs, ∀ n ≤ d.length, d.take n ∈ acc.dirs) →
    ((ps.foldl applyDirCreate acc).files = acc.files) ∧
    (∀ d, d ∈ (ps.foldl applyDirCreate acc).dirs ↔
      d ∈ acc.dirs ∨ ∃ p ∈ ps, d ∈ pathPrefixes p) ∧
    (∀ d ∈ (ps.foldl applyDirCreate acc).dirs, ∀ n ≤ d.length,
      d.take n ∈ (ps.foldl applyDirCreate acc).dirs) := by
  intro ps
  induction ps with
  | nil =>
    intro acc _ hclosed
    exact ⟨rfl, fun d => by simp, hclosed⟩
  | cons p rest ih =>
    intro acc hnof hclosed
    obtain ⟨hs1, hs2, hs3⟩ := applyDirCreate_spec acc p
      (hnof p (List.mem_cons_self _ _)) hclosed
    have hnof' : ∀ q ∈ rest, (applyDirCreate acc p).lookupFile q = none := by
      intro q hq
      rw [Ws.lookupFile, hs1]
      exact hnof q (List.mem_cons_of_mem _ hq)
    obtain ⟨ih1, ih2, ih3⟩ := ih (applyDirCreate acc p) hnof' hs3
    rw [List.foldl_cons]
    refine ⟨by rw [ih1, hs1], ?_, ih3⟩
    intro d
    rw [ih2 d, hs2 d]
    constructor
    · rintro ((hd | hp) | ⟨q, hq, hmem⟩)
      · exact Or.inl hd
      · exact Or.inr ⟨p, List.mem_cons_self _ _, hp⟩
      · exact Or.inr ⟨q, List.mem_cons_of_mem _ hq, hmem⟩
    · rintro (hd | ⟨q, hq, hmem⟩)
      · exact Or.inl (Or.inl hd)
      · rcases List.mem_cons.1 hq with rfl | hq2
        · exact Or.inl (Or.inr hmem)
        · exact Or.inr ⟨q, hq2, hmem⟩

theorem insertSorted_sorted (cmp : α → α → Bool)
    (htot : ∀ a b, cmp a b = true ∨ cmp b a = true)
    (htrans : ∀ a b c, cmp a b = true → cmp b c = true → cmp a c = true)
    (x : α) : ∀ {l : List α}, List.Sorted (fun a b => cmp a b = true) l →
    List.Sorted (fun a b => cmp a b = true) (insertSorted cmp x l) := by
  intro l
  induction l with
  | nil => intro _; simp [insertSorted]
  | cons y ys ih =>
    intro hl
    rw [List.sorted_cons] at hl
    obtain ⟨hy, hys⟩ := hl
    rw [insertSorted]
    split
    · next hxy =>
      rw [List.sorted_cons]
      refine ⟨?_, List.sorted_cons.2 ⟨hy, hys⟩⟩
      intro b hb
      rcases List.mem_cons.1 hb with rfl | hb2
      · exact hxy
      · exact htrans x y b hxy (hy b hb2)
    · next hxy =>
      have hyx : cmp y x = true := by
        rcases htot x y with h1 | h2
        · exact absurd h1 hxy
        · exact h2
      rw [List.sorted_cons]
      refine ⟨?_, ih hys⟩
      intro b hb
      rcases mem_insertSorted.1 hb with rfl | hb2
      · exact hyx
      · exact hy b hb2

theorem sortBy_sorted (cmp : α → α → Bool)
    (htot : ∀ a b, cmp a b = true ∨ cmp b a = true)
    (htrans : ∀ a b c, cmp a b = true → cmp b c = true → cmp a c = true)
    (l : List α) : List.Sorted (fun a b => cmp a b = true) (sortBy cmp l) := by
  induction l with
  | nil => simp [sortBy]
  | cons y ys ih =>
    rw [sortBy, List.foldr_cons]
    rw [sortBy] at ih
    exact insertSorted_sorted cmp htot htrans y ih

theorem strictUnder_take {a b : Pth} (h : strictUnder a b = true) :
    a = b.take a.length ∧ a.length < b.length := by
  rw [strictUnder, Bool.and_eq_true] at h
  obtain ⟨h1, h2⟩ := h
  rw [List.isPrefixOf_iff_prefix] at h1
  have hne : ¬ a = b := by simpa using h2
  have htake := List.prefix_iff_eq_take.1 h1
  refine ⟨htake, ?_⟩
  have hle := h1.length_le
  rcases Nat.lt_or_ge a.length b.length with hlt | hge
  · exact hlt
  · exfalso
    apply hne
    have : a.length = b.length := Nat.le_antisymm hle hge
    rw [htake, this, List.take_length]

theorem strictUnder_of_take {b : Pth} {n : Nat} (hn : n < b.length) :
    strictUnder (b.take n) b = true := by
  rw [strictUnder, Bool.and_eq_true]
  constructor
  · rw [List.isPrefixOf_iff_prefix]
    exact List.take_prefix n b
  · simp only [decide_eq_true_eq]
    intro hx
    have := congrArg List.length hx
    simp only [List.length_take] at this
    omega

theorem pathStrLen_lt_of_strictUnder {a b : Pth} (ha : ¬ a = [])
    (h : strictUnder a b = true) : pathStrLen a < pathStrLen b := by
  rw [strictUnder, Bool.and_eq_true] at h
  obtain ⟨h1, h2⟩ := h
  rw [List.isPrefixOf_iff_prefix] at h1
  obtain ⟨t, rfl⟩ := h1
  have hne : ¬ a = a ++ t := by simpa using h2
  have ht : t ≠ [] := by
    intro hteq
    rw [hteq, List.append_nil] at hne
    exact hne rfl
  rcases a with _ | ⟨s, srest⟩
  · exact absurd rfl ha
  · rcases t with _ | ⟨u, urest⟩
    · exact absurd rfl ht
    · have e1 : pathStrLen (s :: srest) =
          ((s :: srest).map (fun x => x.length + 1)).sum := rfl
      have e2 : pathStrLen ((s :: srest) ++ u :: urest) =
          (((s :: srest) ++ u :: urest).map (fun x => x.length + 1)).sum := rfl
      rw [e1, e2]
      simp only [List.map_append, List.sum_append, List.map_cons, List.sum_cons]
      omega

theorem deletePhase_spec (W : Ws) :
    ∀ (ps : List Pth) (acc : Ws),
    List.Sorted (fun a b => pathStrLen b ≤ pathStrLen a) ps →
    ps.Nodup →
    (∀ p ∈ ps, ¬ p = []) →
    (∀ p ∈ ps, W.lookupFile p = none) →
    (∀ p ∈ ps, p ∉ W.dirs) →
    filesEq acc W →
    (∀ d, d ∈ acc.dirs ↔ d ∈ W.dirs ∨ d ∈ ps) →
    dirsClosed W → filesAnchored W →
    filesEq (ps.foldl applyDirDelete acc) W ∧
    (∀ d, d ∈ (ps.foldl applyDirDelete acc).dirs ↔ d ∈ W.dirs) := by
  intro ps
  induction ps with
  | nil =>
    intro acc _ _ _ _ _ hfe hdirs _ _
    refine ⟨hfe, fun d => ?_⟩
    rw [List.foldl_nil, hdirs d]
    simp
  | cons p rest ih =>
    intro acc hsorted hnodup hroot hnofW hnotW hfe hdirs hclosed hanch
    rw [List.sorted_cons] at hsorted
    obtain ⟨hhead, hsorted'⟩ := hsorted
    rw [List.nodup_cons] at hnodup
    obtain ⟨hpnotin, hnodup'⟩ := hnodup
    have hproot : ¬ p = [] := hroot p (List.mem_cons_self _ _)
    have hpfile : acc.lookupFile p = none := by
      rw [hfe p]
      exact hnofW p (List.mem_cons_self _ _)
    have hpdir : p ∈ acc.dirs :=
      (hdirs p).2 (Or.inr (List.mem_cons_self _ _))
    have hpnotWdir : p ∉ W.dirs := hnotW p (List.mem_cons_self _ _)
    have hnofile : ∀ f, (acc.lookupFile f).isSome → strictUnder p f = false := by
      intro f hsome
      by_contra hsu
      rw [Bool.not_eq_false] at hsu
      obtain ⟨htake, hlt⟩ := strictUnder_take hsu
      rw [hfe f] at hsome
      apply hpnotWdir
      rw [htake]
      exact hanch f hsome p.length hlt
    have hnodir : ∀ d ∈ acc.dirs, ¬ d = p → strictUnder p d = false := by
      intro d hd hne
      by_contra hsu
      rw [Bool.not_eq_false] at hsu
      obtain ⟨htake, hlt⟩ := strictUnder_take hsu
      rcases (hdirs d).1 hd with hW | hps
      · apply hpnotWdir
        rw [htake]
        exact hclosed d hW p.length (Nat.le_of_lt hlt)
      · rcases List.mem_cons.1 hps with rfl | hrest
        · exact hne rfl
        · have h1 : pathStrLen d ≤ pathStrLen p := hhead d hrest
          have h2 : pathStrLen p < pathStrLen d :=
            pathStrLen_lt_of_strictUnder hproot hsu
          omega
    have hstat : acc.stat p = some (false, 0) := stat_some_dir hpfile hpdir
    have hstep : applyDirDelete acc p =
        { acc with dirs := acc.dirs.filter (fun d => ¬ d = p) } := by
      rw [applyDirDelete, hstat]
      exact del_dir_success hpfile hpdir hproot hnofile hnodir
    rw [List.foldl_cons, hstep]
    apply ih
    · exact hsorted'
    · exact hnodup'
    · exact fun q hq => hroot q (List.mem_cons_of_mem _ hq)
    · exact fun q hq => hnofW q (List.mem_cons_of_mem _ hq)
    · exact fun q hq => hnotW q (List.mem_cons_of_mem _ hq)
    · exact hfe
    · intro d
      rw [List.mem_filter]
      constructor
      · rintro ⟨hd, hne⟩
        simp only [decide_eq_true_eq] at hne
        rcases (hdirs d).1 hd with hW | hps
        · exact Or.inl hW
        · rcases List.mem_cons.1 hps with rfl | hrest
          · exact absurd rfl hne
          · exact Or.inr hrest
      · rintro (hW | hrest)
        · refine ⟨(hdirs d).2 (Or.inl hW), ?_⟩
          simp only [decide_eq_true_eq]
          intro hdp
          exact hpnotWdir (hdp ▸ hW)
        · refine ⟨(hdirs d).2 (Or.inr (List.mem_cons_of_mem _ hrest)), ?_⟩
          simp only [decide_eq_true_eq]
          intro hdp
          exact hpnotin (hdp ▸ hrest)
    · exact hclosed
    · exact hanch

theorem noReserved_lookup_none {W : Ws} (h : noReservedWs W) {q : Pth}
    (hq : isTimePath q = true) : W.lookupFile q = none := by
  rcases hl : W.lookupFile q with _ | v
  · rfl
  · have := h.1 q (by rw [hl]; rfl)
    rw [hq] at this
    exact absurd this (by simp)

theorem self_mem_pathPrefixes (p : Pth) : p ∈ pathPrefixes p := by
  rw [pathPrefixes]
  refine List.mem_map.2 ⟨p.length, ?_, List.take_length p⟩
  rw [List.mem_range]
  omega

theorem pathPrefixes_sub_dirs {W : Ws} (hclosed : dirsClosed W) {p : Pth}
    (hp : p ∈ W.dirs) : ∀ d ∈ pathPrefixes p, d ∈ W.dirs := by
  intro d hd
  rw [pathPrefixes] at hd
  obtain ⟨n, hn, rfl⟩ := List.mem_map.1 hd
  rw [List.mem_range] at hn
  exact hclosed p hp n (by omega)

theorem prefix_dirname_mem {W : Ws} (hroot : [] ∈ W.dirs)
    (hanch : filesAnchored W) {p : Pth} (hsome : (W.lookupFile p).isSome)
    {d : Pth} (hd : d ∈ pathPrefixes (segDirname p)) : d ∈ W.dirs := by
  rw [pathPrefixes] at hd
  obtain ⟨n, hn, rfl⟩ := List.mem_map.1 hd
  rw [List.mem_range, segDirname, List.length_dropLast] at hn
  rw [segDirname, List.dropLast_eq_take, List.take_take]
  rcases Nat.eq_zero_or_pos p.length with hz | hpos
  · have hpnil : p = [] := List.length_eq_zero.1 hz
    subst hpnil
    simpa using hroot
  · exact hanch p hsome _ (by omega)

theorem ite_coe_bool {c a b : Bool} :
    (if c = true then a = true else b = true) ↔ (if c then a else b) = true := by
  cases c <;> simp

theorem applyEntry_spec (blobs : List (Pth × Bytes)) (which : Bool)
    (fileChs dirChs : List Change) (Wsrc Wtgt : Ws) (e : Entry)
    (he : e.changes = fileChs ++ dirChs)
    (hfile_isf : ∀ ch ∈ fileChs, ch.isFile = true)
    (hdir_isf : ∀ ch ∈ dirChs, ch.isFile = false)
    (hfile_nodup : (fileChs.map Change.path).Nodup)
    (hfile_props : ∀ ch ∈ fileChs, isTimePath ch.path = false ∧
      ((if which then ch.beforeExists else ch.afterExists) =
        (Wtgt.lookupFile ch.path).isSome) ∧
      (∀ v, Wtgt.lookupFile ch.path = some v →
        ∃ bp, (if which then ch.beforeBlob else ch.afterBlob) = some bp ∧
          alookup blobs bp = some v))
    (hfile_cover : ∀ q, isTimePath q = false →
      ¬ Wsrc.lookupFile q = Wtgt.lookupFile q → ∃ ch ∈ fileChs, ch.path = q)
    (hdir_nodup : (dirChs.map Change.path).Nodup)
    (hdir_props : ∀ ch ∈ dirChs, ¬ ch.path = [] ∧ isTimePath ch.path = false ∧
      ((if which then ch.beforeExists else ch.afterExists) = true ↔
        ch.path ∈ Wtgt.dirs) ∧
      ¬ (ch.path ∈ Wsrc.dirs ↔ ch.path ∈ Wtgt.dirs) ∧
      Wsrc.lookupFile ch.path = none ∧ Wtgt.lookupFile ch.path = none)
    (hdir_cover : ∀ d, ¬ d = [] → isTimePath d = false →
      ¬ (d ∈ Wsrc.dirs ↔ d ∈ Wtgt.dirs) → ∃ ch ∈ dirChs, ch.path = d)
    (hsrc : goodWs Wsrc) (htgt : goodWs Wtgt)
    (ws : Ws) (hlike : wsLike ws Wsrc) :
    wsLike (applyEntry ws blobs e which) Wtgt := by
  obtain ⟨hsclosed, hsanch, hscoh, hsres, hsroot⟩ := hsrc
  obtain ⟨htclosed, htanch, htcoh, htres, htroot⟩ := htgt
  obtain ⟨hwf, hwd⟩ := hlike
  rw [applyEntry]
  have hfilter1 : (e.changes.filter (fun c => c.isFile)) = fileChs := by
    rw [he, List.filter_append]
    rw [List.filter_eq_self.2 hfile_isf]
    rw [List.filter_eq_nil.2 (fun ch hch => by simp [hdir_isf ch hch])]
    rw [List.append_nil]
  have hfilter2 : (e.changes.filter (fun c => ¬ c.isFile)) = dirChs := by
    rw [he, List.filter_append]
    rw [List.filter_eq_nil.2 (fun ch hch => by simp [hfile_isf ch hch])]
    rw [List.filter_eq_self.2 (fun ch hch => by simp [hdir_isf ch hch])]
    rw [List.nil_append]
  rw [hfilter1, hfilter2]
  obtain ⟨hf1, hf2, hf3⟩ := filePhase_spec blobs which Wtgt fileChs ws
    hfile_nodup hfile_props
  set ws1 := fileChs.foldl (applyFileChange blobs which) ws with hws1def
  set toC := sortBy (fun a b => pathStrLen a ≤ pathStrLen b)
    ((dirChs.filter (fun ch => ¬ isTimePath ch.path ∧
      (if which then ch.beforeExists else ch.afterExists))).map
        (fun ch => ch.path)) with htoCdef
  set toD := sortBy (fun a b => pathStrLen b ≤ pathStrLen a)
    ((dirChs.filter (fun ch => ¬ isTimePath ch.path ∧
      ¬ (if which then ch.beforeExists else ch.afterExists))).map
        (fun ch => ch.path)) with htoDdef
  have hfe1 : filesEq ws1 Wtgt := by
    intro q
    by_cases hqch : ∃ ch ∈ fileChs, ch.path = q
    · obtain ⟨ch, hch, hpq⟩ := hqch
      rw [← hpq]
      exact hf1 ch hch
    · push_neg at hqch
      rw [hf2 q hqch, hwf q]
      by_cases hqt : isTimePath q = true
      · rw [noReserved_lookup_none hsres hqt, noReserved_lookup_none htres hqt]
      · by_contra hne
        obtain ⟨ch, hch, hpq⟩ := hfile_cover q (by simpa using hqt) hne
        exact hqch ch hch hpq
  have hws1sup : ∀ d ∈ Wsrc.dirs, d ∈ ws1.dirs := by
    intro d hd
    exact (hf3 d).2 (Or.inl ((hwd d).2 hd))
  have hws1sub : ∀ d ∈ ws1.dirs, d ∈ Wsrc.dirs ∨ d ∈ Wtgt.dirs := by
    intro d hd
    rcases (hf3 d).1 hd with hdw | ⟨ch, hch, hsome, hdp⟩
    · exact Or.inl ((hwd d).1 hdw)
    · exact Or.inr (prefix_dirname_mem htroot htanch hsome hdp)
  have hws1closed : ∀ d ∈ ws1.dirs, ∀ n ≤ d.length, d.take n ∈ ws1.dirs := by
    intro d hd n hn
    rcases (hf3 d).1 hd with hdw | ⟨ch, hch, hsome, hdp⟩
    · exact (hf3 _).2 (Or.inl ((hwd _).2 (hsclosed d ((hwd d).1 hdw) n hn)))
    · exact (hf3 _).2 (Or.inr ⟨ch, hch, hsome, pathPrefixes_closed hdp n hn⟩)
  have hC_elim : ∀ p ∈ toC, p ∈ Wtgt.dirs ∧ p ∉ Wsrc.dirs := by
    intro p hp
    rw [htoCdef] at hp
    obtain ⟨ch, hchf, hpq⟩ := List.mem_map.1 (mem_sortBy.1 hp)
    rw [List.mem_filter] at hchf
    obtain ⟨hch, hpred⟩ := hchf
    simp only [decide_eq_true_eq] at hpred
    obtain ⟨hnt, hwhich⟩ := hpred
    obtain ⟨hroot2, ht2, hiff, hmis, hsnone, htnone⟩ := hdir_props ch hch
    subst hpq
    refine ⟨hiff.1 (ite_coe_bool.1 hwhich), ?_⟩
    intro hsrcmem
    exact hmis (iff_of_true hsrcmem (hiff.1 (ite_coe_bool.1 hwhich)))
  have hC_intro : ∀ p, p ∈ Wtgt.dirs → p ∉ Wsrc.dirs → p ∈ toC := by
    intro p hpt hps
    have hroot2 : ¬ p = [] := fun hp0 => hps (hp0 ▸ hsroot)
    have ht2 : isTimePath p = false := htres.2 p hpt
    obtain ⟨ch, hch, hpq⟩ := hdir_cover p hroot2 ht2
      (fun hiff => hps (hiff.2 hpt))
    obtain ⟨_, ht3, hiff, _, _, _⟩ := hdir_props ch hch
    rw [htoCdef]
    refine mem_sortBy.2 (List.mem_map.2 ⟨ch, ?_, hpq⟩)
    rw [List.mem_filter]
    refine ⟨hch, ?_⟩
    simp only [decide_eq_true_eq]
    refine ⟨by simp [ht3], ite_coe_bool.2 (hiff.2 (by rw [hpq]; exact hpt))⟩
  have hD_elim : ∀ p ∈ toD, (p ∈ Wsrc.dirs ∧ p ∉ Wtgt.dirs) ∧
      (¬ p = [] ∧ Wtgt.lookupFile p = none) := by
    intro p hp
    rw [htoDdef] at hp
    obtain ⟨ch, hchf, hpq⟩ := List.mem_map.1 (mem_sortBy.1 hp)
    rw [List.mem_filter] at hchf
    obtain ⟨hch, hpred⟩ := hchf
    simp only [decide_eq_true_eq] at hpred
    obtain ⟨hnt, hwhich⟩ := hpred
    obtain ⟨hroot2, ht2, hiff, hmis, hsnone, htnone⟩ := hdir_props ch hch
    subst hpq
    have hnt2 : ch.path ∉ Wtgt.dirs :=
      fun hm => hwhich (ite_coe_bool.2 (hiff.2 hm))
    refine ⟨⟨?_, hnt2⟩, hroot2, htnone⟩
    by_contra hns
    exact hmis (iff_of_false hns hnt2)
  have hD_intro : ∀ p, p ∈ Wsrc.dirs → p ∉ Wtgt.dirs → p ∈ toD := by
    intro p hps hpt
    have hroot2 : ¬ p = [] := fun hp0 => hpt (hp0 ▸ htroot)
    have ht2 : isTimePath p = false := hsres.2 p hps
    obtain ⟨ch, hch, hpq⟩ := hdir_cover p hroot2 ht2
      (fun hiff => hpt (hiff.1 hps))
    obtain ⟨_, ht3, hiff, _, _, _⟩ := hdir_props ch hch
    rw [htoDdef]
    refine mem_sortBy.2 (List.mem_map.2 ⟨ch, ?_, hpq⟩)
    rw [List.mem_filter]
    refine ⟨hch, ?_⟩
    simp only [decide_eq_true_eq]
    refine ⟨by simp [ht3], ?_⟩
    intro hwhich
    exact hpt (by rw [← hpq]; exact hiff.1 (ite_coe_bool.1 hwhich))
  have hD_nodup : toD.Nodup := by
    rw [htoDdef]
    refine ((sortBy_perm _ _).nodup_iff).2 ?_
    exact List.Sublist.nodup
      (List.Sublist.map Change.path (List.filter_sublist _)) hdir_nodup
  have hD_sorted : List.Sorted (fun a b => pathStrLen b ≤ pathStrLen a) toD := by
    rw [htoDdef]
    refine List.Pairwise.imp (fun h => of_decide_eq_true h) ?_
    refine sortBy_sorted _ ?_ ?_ _
    · intro a b
      rcases Nat.le_total (pathStrLen b) (pathStrLen a) with h | h
      · exact Or.inl (decide_eq_true h)
      · exact Or.inr (decide_eq_true h)
    · intro a b c h1 h2
      exact decide_eq_true
        (Nat.le_trans (of_decide_eq_true h2) (of_decide_eq_true h1))
  obtain ⟨hc1, hc2, hc3⟩ := createPhase_spec toC ws1
    (fun p hp => by
      have hpt := (hC_elim p hp).1
      rcases hl : ws1.lookupFile p with _ | v
      · rfl
      · exfalso
        apply htcoh p ?_ hpt
        rw [← hfe1 p, hl]
        rfl)
    hws1closed
  set ws2 := toC.foldl applyDirCreate ws1 with hws2def
  have hfe2 : filesEq ws2 Wtgt := by
    intro q
    have hq2 : ws2.lookupFile q = ws1.lookupFile q := by
      rw [Ws.lookupFile, Ws.lookupFile, hc1]
    rw [hq2]
    exact hfe1 q
  have hws2dirs : ∀ d, d ∈ ws2.dirs ↔ d ∈ Wtgt.dirs ∨ d ∈ toD := by
    intro d
    rw [hc2 d]
    constructor
    · rintro (hd1 | ⟨p, hp, hdp⟩)
      · rcases hws1sub d hd1 with hs | ht4
        · by_cases hdt : d ∈ Wtgt.dirs
          · exact Or.inl hdt
          · exact Or.inr (hD_intro d hs hdt)
        · exact Or.inl ht4
      · exact Or.inl (pathPrefixes_sub_dirs htclosed (hC_elim p hp).1 d hdp)
    · rintro (hdt | hdd)
      · by_cases hds : d ∈ Wsrc.dirs
        · exact Or.inl (hws1sup d hds)
        · exact Or.inr ⟨d, hC_intro d hdt hds, self_mem_pathPrefixes d⟩
      · exact Or.inl (hws1sup d ((hD_elim d hdd).1.1))
  obtain ⟨hdel1, hdel2⟩ := deletePhase_spec Wtgt toD ws2 hD_sorted hD_nodup
    (fun p hp => (hD_elim p hp).2.1)
    (fun p hp => (hD_elim p hp).2.2)
    (fun p hp => (hD_elim p hp).1.2)
    hfe2 hws2dirs htclosed htanch
  exact ⟨hdel1, hdel2⟩

theorem entryLinks_undo {store : List (String × Entry)}
    {blobs : List (Pth × Bytes)} {sid : String} {Wa Wb : Ws}
    (h : entryLinks store blobs sid Wa Wb) (ws : Ws) (hlike : wsLike ws Wb) :
    wsLike (applyEntry ws blobs (loadEntry store sid) true) Wa := by
  obtain ⟨s, hstore, ⟨hsnap1, hsnap2, hsnapBd, hsnapAd⟩, hblobB, hblobA, hprov,
    hgWa, hgWb⟩ := h
  have he : (loadEntry store sid).changes =
      computeFileChanges s.bf s.af sid ++ computeDirChanges s.bd s.ad := by
    rw [loadEntry, hstore]
    rfl
  refine applyEntry_spec blobs true _ _ Wb Wa _ he
    (fun ch hch => (computeFileChanges_mem hch).1)
    (fun ch hch => (computeDirChanges_mem hch).1)
    (computeFileChanges_nodup _ _ _)
    ?_ ?_ (computeDirChanges_nodup _ _) ?_ ?_ hgWb hgWa ws hlike
  · intro ch hch
    obtain ⟨hisf, hnt, hbe, hae, hne, hbb, hab⟩ := computeFileChanges_mem hch
    refine ⟨hnt, ?_, ?_⟩
    · rw [if_pos rfl, hbe, (hsnap1 ch.path hne).1]
    · intro v hv
      have hbfsome : (alookup s.bf ch.path).isSome = true := by
        rw [(hsnap1 ch.path hne).1, hv]
        rfl
      refine ⟨blobPath sid true ch.path, ?_, hblobB ch.path v hne hv⟩
      rw [if_pos rfl, hbb, if_pos hbfsome]
  · intro q hqt hne
    have hne2 : ¬ alookup s.bf q = alookup s.af q :=
      hsnap2 q hqt (fun heq => hne heq.symm)
    exact ⟨_, computeFileChanges_cover hqt hne2, rfl⟩
  · intro ch hch
    obtain ⟨hisf, hroot, hnt, hbb, hab, hdisj⟩ := computeDirChanges_mem hch
    rcases hdisj with ⟨hbe, hae, hin, hout⟩ | ⟨hbe, hae, hin, hout⟩
    · have hmemA : ch.path ∈ Wa.dirs := (hsnapBd ch.path).1 hin
      have hmemB : ch.path ∉ Wb.dirs := fun hm => hout ((hsnapAd ch.path).2 hm)
      refine ⟨hroot, hnt, ?_, ?_, ?_, ?_⟩
      · rw [if_pos rfl]
        exact ⟨fun _ => hmemA, fun _ => hbe⟩
      · exact fun hiff => hmemB (hiff.2 hmemA)
      · exact (hprov ch.path hroot hnt (fun hiff => hmemB (hiff.1 hmemA))).2
      · exact (hprov ch.path hroot hnt (fun hiff => hmemB (hiff.1 hmemA))).1
    · have hmemB : ch.path ∈ Wb.dirs := (hsnapAd ch.path).1 hin
      have hmemA : ch.path ∉ Wa.dirs := fun hm => hout ((hsnapBd ch.path).2 hm)
      refine ⟨hroot, hnt, ?_, ?_, ?_, ?_⟩
      · rw [if_pos rfl]
        refine iff_of_false ?_ hmemA
        rw [hbe]
        exact Bool.false_ne_true
      · exact fun hiff => hmemA (hiff.1 hmemB)
      · exact (hprov ch.path hroot hnt (fun hiff => hmemA (hiff.2 hmemB))).2
      · exact (hprov ch.path hroot hnt (fun hiff => hmemA (hiff.2 hmemB))).1
  · intro d hroot hnt hmis
    by_cases hda : d ∈ Wa.dirs
    · have hdb : d ∉ Wb.dirs := fun hm => hmis (iff_of_true hm hda)
      refine ⟨_, computeDirChanges_cover_before hroot hnt
        ((hsnapBd d).2 hda) (fun hm => hdb ((hsnapAd d).1 hm)), rfl⟩
    · have hdb : d ∈ Wb.dirs := by
        by_contra hdb
        exact hmis (iff_of_false hdb hda)
      refine ⟨_, computeDirChanges_cover_after hroot hnt
        ((hsnapAd d).2 hdb) (fun hm => hda ((hsnapBd d).1 hm)), rfl⟩

theorem entryLinks_redo {store : List (String × Entry)}
    {blobs : List (Pth × Bytes)} {sid : String} {Wa Wb : Ws}
    (h : entryLinks store blobs sid Wa Wb) (ws : Ws) (hlike : wsLike ws Wa) :
    wsLike (applyEntry ws blobs (loadEntry store sid) false) Wb := by
  obtain ⟨s, hstore, ⟨hsnap1, hsnap2, hsnapBd, hsnapAd⟩, hblobB, hblobA, hprov,
    hgWa, hgWb⟩ := h
  have he : (loadEntry store sid).changes =
      computeFileChanges s.bf s.af sid ++ computeDirChanges s.bd s.ad := by
    rw [loadEntry, hstore]
    rfl
  refine applyEntry_spec blobs false _ _ Wa Wb _ he
    (fun ch hch => (computeFileChanges_mem hch).1)
    (fun ch hch => (computeDirChanges_mem hch).1)
    (computeFileChanges_nodup _ _ _)
    ?_ ?_ (computeDirChanges_nodup _ _) ?_ ?_ hgWa hgWb ws hlike
  · intro ch hch
    obtain ⟨hisf, hnt, hbe, hae, hne, hbb, hab⟩ := computeFileChanges_mem hch
    refine ⟨hnt, ?_, ?_⟩
    · rw [if_neg Bool.false_ne_true, hae, (hsnap1 ch.path hne).2]
    · intro v hv
      have hafsome : (alookup s.af ch.path).isSome = true := by
        rw [(hsnap1 ch.path hne).2, hv]
        rfl
      refine ⟨blobPath sid false ch.path, ?_, hblobA ch.path v hne hv⟩
      rw [if_neg Bool.false_ne_true, hab, if_pos hafsome]
  · intro q hqt hne
    have hne2 : ¬ alookup s.bf q = alookup s.af q := hsnap2 q hqt hne
    exact ⟨_, computeFileChanges_cover hqt hne2, rfl⟩
  · intro ch hch
    obtain ⟨hisf, hroot, hnt, hbb, hab, hdisj⟩ := computeDirChanges_mem hch
    rcases hdisj with ⟨hbe, hae, hin, hout⟩ | ⟨hbe, hae, hin, hout⟩
    · have hmemA : ch.path ∈ Wa.dirs := (hsnapBd ch.path).1 hin
      have hmemB : ch.path ∉ Wb.dirs := fun hm => hout ((hsnapAd ch.path).2 hm)
      refine ⟨hroot, hnt, ?_, ?_, ?_, ?_⟩
      · rw [if_neg Bool.false_ne_true]
        refine iff_of_false ?_ hmemB
        rw [hae]
        exact Bool.false_ne_true
      · exact fun hiff => hmemB (hiff.1 hmemA)
      · exact (hprov ch.path hroot hnt (fun hiff => hmemB (hiff.1 hmemA))).1
      · exact (hprov ch.path hroot hnt (fun hiff => hmemB (hiff.1 hmemA))).2
    · have hmemB : ch.path ∈ Wb.dirs := (hsnapAd ch.path).1 hin
      have hmemA : ch.path ∉ Wa.dirs := fun hm => hout ((hsnapBd ch.path).2 hm)
      refine ⟨hroot, hnt, ?_, ?_, ?_, ?_⟩
      · rw [if_neg Bool.false_ne_true]
        exact ⟨fun _ => hmemB, fun _ => hae⟩
      · exact fun hiff => hmemA (hiff.2 hmemB)
      · exact (hprov ch.path hroot hnt (fun hiff => hmemA (hiff.2 hmemB))).1
      · exact (hprov ch.path hroot hnt (fun hiff => hmemA (hiff.2 hmemB))).2
  · intro d hroot hnt hmis
    by_cases hda : d ∈ Wa.dirs
    · have hdb : d ∉ Wb.dirs := fun hm => hmis (iff_of_true hda hm)
      refine ⟨_, computeDirChanges_cover_before hroot hnt
        ((hsnapBd d).2 hda) (fun hm => hdb ((hsnapAd d).1 hm)), rfl⟩
    · have hdb : d ∈ Wb.dirs := by
        by_contra hdb
        exact hmis (iff_of_false hda hdb)
      refine ⟨_, computeDirChanges_cover_after hroot hnt
        ((hsnapAd d).2 hdb) (fun hm => hda ((hsnapBd d).1 hm)), rfl⟩

/-- A full replay chain: `Wl` lists the workspace states around the
recorded entries (`Wl.get i` before entry `i`, `Wl.get (i+1)` after it)
and each stored entry truthfully links its two neighbouring states. -/
def chainAt (store : List (String × Entry)) (blobs : List (Pth × Bytes))
    (entries : List Summary) (Wl : List Ws) : Prop :=
  Wl.length = entries.length + 1 ∧
  ∀ i < entries.length,
    entryLinks store blobs (entries.getD i ⟨""⟩).id (Wl.getD i Ws.empty)
      (Wl.getD (i + 1) Ws.empty)

theorem undoLoop_chain (entries : List Summary) (store : List (String × Entry))
    (blobs : List (Pth × Bytes)) (Wl : List Ws)
    (hchain : chainAt store blobs entries Wl) :
    ∀ (n cursor did : Nat) (ws : Ws), cursor ≤ entries.length →
    wsLike ws (Wl.getD cursor Ws.empty) →
    (undoLoop entries store blobs n cursor ws did).1 = cursor - min n cursor ∧
    wsLike (undoLoop entries store blobs n cursor ws did).2.1
      (Wl.getD (cursor - min n cursor) Ws.empty) ∧
    (undoLoop entries store blobs n cursor ws did).2.2 = did + min n cursor := by
  obtain ⟨hlen, hlinks⟩ := hchain
  intro n
  induction n with
  | zero =>
    intro cursor did ws hc hws
    have h0 : cursor - min 0 cursor = cursor := by omega
    have h1 : did + min 0 cursor = did := by omega
    rw [h0, h1]
    exact ⟨rfl, hws, rfl⟩
  | succ n ih =>
    intro cursor did ws hc hws
    by_cases hc0 : cursor = 0
    · subst hc0
      have h0 : 0 - min (n + 1) 0 = 0 := by omega
      have h1 : did + min (n + 1) 0 = did := by omega
      rw [h0, h1]
      exact ⟨rfl, hws, rfl⟩
    · have heq : undoLoop entries store blobs (n + 1) cursor ws did =
          undoLoop entries store blobs n (cursor - 1)
            (applyEntry ws blobs
              (loadEntry store ((entries.getD (cursor - 1) ⟨""⟩).id)) true)
            (did + 1) := by
        rw [undoLoop, if_neg hc0]
      have hlt : cursor - 1 < entries.length := by omega
      have hcur1 : cursor - 1 + 1 = cursor := by omega
      have happ := entryLinks_undo (hlinks (cursor - 1) hlt) ws
        (by rw [hcur1]; exact hws)
      obtain ⟨ih1, ih2, ih3⟩ := ih (cursor - 1) (did + 1) _ (by omega) happ
      rw [heq]
      refine ⟨?_, ?_, ?_⟩
      · rw [ih1]
        omega
      · have harith : cursor - 1 - min n (cursor - 1) =
            cursor - min (n + 1) cursor := by omega
        rw [← harith]
        exact ih2
      · rw [ih3]
        omega

theorem redoLoop_chain (entries : List Summary) (store : List (String × Entry))
    (blobs : List (Pth × Bytes)) (Wl : List Ws)
    (hchain : chainAt store blobs entries Wl) :
    ∀ (n cursor did : Nat) (ws : Ws), cursor ≤ entries.length →
    wsLike ws (Wl.getD cursor Ws.empty) →
    (redoLoop entries store blobs n cursor ws did).1 =
      cursor + min n (entries.length - cursor) ∧
    wsLike (redoLoop entries store blobs n cursor ws did).2.1
      (Wl.getD (cursor + min n (entries.length - cursor)) Ws.empty) ∧
    (redoLoop entries store blobs n cursor ws did).2.2 =
      did + min n (entries.length - cursor) := by
  obtain ⟨hlen, hlinks⟩ := hchain
  intro n
  induction n with
  | zero =>
    intro cursor did ws hc hws
    have h0 : cursor + min 0 (entries.length - cursor) = cursor := by omega
    have h1 : did + min 0 (entries.length - cursor) = did := by omega
    rw [h0, h1]
    exact ⟨rfl, hws, rfl⟩
  | succ n ih =>
    intro cursor did ws hc hws
    by_cases hstop : entries.length ≤ cursor
    · have heq : redoLoop entries store blobs (n + 1) cursor ws did =
          (cursor, ws, did) := by
        rw [redoLoop, if_pos hstop]
      have h0 : cursor + min (n + 1) (entries.length - cursor) = cursor := by
        omega
      have h1 : did + min (n + 1) (entries.length - cursor) = did := by omega
      rw [heq, h0, h1]
      exact ⟨rfl, hws, rfl⟩
    · have heq : redoLoop entries store blobs (n + 1) cursor ws did =
          redoLoop entries store blobs n (cursor + 1)
            (applyEntry ws blobs
              (loadEntry store ((entries.getD cursor ⟨""⟩).id)) false)
            (did + 1) := by
        rw [redoLoop, if_neg hstop]
      have hlt : cursor < entries.length := by omega
      have happ := entryLinks_redo (hlinks cursor hlt) ws hws
      obtain ⟨ih1, ih2, ih3⟩ := ih (cursor + 1) (did + 1) _ (by omega) happ
      rw [heq]
      refine ⟨?_, ?_, ?_⟩
      · rw [ih1]
        omega
      · have harith : cursor + 1 + min n (entries.length - (cursor + 1)) =
            cursor + min (n + 1) (entries.length - cursor) := by omega
        rw [← harith]
        exact ih2
      · rw [ih3]
        omega

theorem wsLike_symm {x y : Ws} (h : wsLike x y) : wsLike y x :=
  ⟨fun p => (h.1 p).symm, fun d => (h.2 d).symm⟩

theorem wsLike_trans {x y z : Ws} (h1 : wsLike x y) (h2 : wsLike y z) :
    wsLike x z :=
  ⟨fun p => (h1.1 p).trans (h2.1 p), fun d => (h1.2 d).trans (h2.2 d)⟩

theorem timeUndo_eq (t : Tm) (ws : Ws) (k : Nat) :
    timeUndo t ws k =
      ({ t with state := { clampState t.state with cursor :=
          (undoLoop t.state.entries t.entryStore t.blobs
            (max 1 (min 1000 (if k = 0 then 1 else k)))
            (min t.state.entries.length t.state.cursor) ws 0).1 } },
       (undoLoop t.state.entries t.entryStore t.blobs
          (max 1 (min 1000 (if k = 0 then 1 else k)))
          (min t.state.entries.length t.state.cursor) ws 0).2.1,
       (undoLoop t.state.entries t.entryStore t.blobs
          (max 1 (min 1000 (if k = 0 then 1 else k)))
          (min t.state.entries.length t.state.cursor) ws 0).2.2) := rfl

theorem timeRedo_eq (t : Tm) (ws : Ws) (k : Nat) :
    timeRedo t ws k =
      ({ t with state := { clampState t.state with cursor :=
          (redoLoop t.state.entries t.entryStore t.blobs
            (max 1 (min 1000 (if k = 0 then 1 else k)))
            (min t.state.entries.length t.state.cursor) ws 0).1 } },
       (redoLoop t.state.entries t.entryStore t.blobs
          (max 1 (min 1000 (if k = 0 then 1 else k)))
          (min t.state.entries.length t.state.cursor) ws 0).2.1,
       (redoLoop t.state.entries t.entryStore t.blobs
          (max 1 (min 1000 (if k = 0 then 1 else k)))
          (min t.state.entries.length t.state.cursor) ws 0).2.2) := rfl

/-- C4 (corrected): from the head of the log, `timeUndo` with `k` steps
followed by `timeRedo` with `k` steps returns the workspace to contents
extensionally byte-identical to the starting state, and the cursor to
`entries.length`, provided every recorded entry truthfully links its
surrounding states (`chainAt`), which in particular requires that no
entry carries a directory change at a path holding file bytes on the
side lacking the directory — the proviso whose violation the
counterexample exhibits. -/
theorem c4_round_trip_amended (t : Tm) (ws : Ws) (k : Nat) (Wl : List Ws)
    (hchain : chainAt t.entryStore t.blobs t.state.entries Wl)
    (hcur : t.state.cursor = t.state.entries.length)
    (hws : wsLike ws (Wl.getD t.state.entries.length Ws.empty)) :
    wsLike (timeRedo (timeUndo t ws k).1 (timeUndo t ws k).2.1 k).2.1 ws ∧
    (timeRedo (timeUndo t ws k).1 (timeUndo t ws k).2.1 k).1.state.cursor =
      t.state.entries.length := by
  rw [timeUndo_eq]
  dsimp only []
  rw [timeRedo_eq]
  dsimp only []
  have hcse : (clampState t.state).entries = t.state.entries := rfl
  rw [hcse]
  set L := t.state.entries.length with hLdef
  set n := max 1 (min 1000 (if k = 0 then 1 else k)) with hndef
  set c0 := min L t.state.cursor with hc0def
  set U := undoLoop t.state.entries t.entryStore t.blobs n c0 ws 0 with hUdef
  set c1 := min L U.1 with hc1def
  set R := redoLoop t.state.entries t.entryStore t.blobs n c1 U.2.1 0 with hRdef
  have hc0L : c0 = L := by
    rw [hc0def, hcur]
    exact Nat.min_self _
  obtain ⟨hu1, hu2, hu3⟩ := undoLoop_chain t.state.entries t.entryStore
    t.blobs Wl hchain n c0 0 ws (by omega) (by rw [hc0L]; exact hws)
  have hc1e : c1 = c0 - min n c0 := by
    rw [hc1def, hu1]
    omega
  obtain ⟨hr1, hr2, hr3⟩ := redoLoop_chain t.state.entries t.entryStore
    t.blobs Wl hchain n c1 0 U.2.1 (by omega) (by rw [hc1e]; exact hu2)
  have hback : c1 + min n (L - c1) = L := by omega
  constructor
  · refine wsLike_trans ?_ (wsLike_symm hws)
    rw [← hback]
    exact hr2
  · rw [hr1]
    omega

/-- C5 (corrected): when the target id sits at index `idx` of the log,
`timeRestore` reports success, parks the cursor at `idx + 1`, and leaves
the workspace extensionally byte-identical to the entry's after state,
provided every recorded entry truthfully links its surrounding states
(`chainAt`) — the proviso whose violation the counterexample exhibits. -/
theorem c5_restore_amended (t : Tm) (ws : Ws) (target : String) (Wl : List Ws)
    (hchain : chainAt t.entryStore t.blobs t.state.entries Wl)
    (hcur : t.state.cursor ≤ t.state.entries.length)
    (hws : wsLike ws (Wl.getD t.state.cursor Ws.empty))
    (hidx : t.state.entries.findIdx (fun e => e.id = target) <
      t.state.entries.length) :
    (timeRestore t ws target).2.2 = true ∧
    (timeRestore t ws target).1.state.cursor =
      t.state.entries.findIdx (fun e => e.id = target) + 1 ∧
    wsLike (timeRestore t ws target).2.1
      (Wl.getD (t.state.entries.findIdx (fun e => e.id = target) + 1)
        Ws.empty) := by
  rw [timeRestore]
  have hcse : (clampState t.state).entries = t.state.entries := rfl
  have hcsc : (clampState t.state).cursor =
      min t.state.entries.length t.state.cursor := rfl
  rw [hcse, hcsc]
  rw [if_neg (by omega)]
  dsimp only []
  set L := t.state.entries.length with hLdef
  set idx := t.state.entries.findIdx (fun e => e.id = target) with hidxdef
  set c0 := min L t.state.cursor with hc0def
  set D := undoLoop t.state.entries t.entryStore t.blobs (c0 - (idx + 1))
    c0 ws 0 with hDdef
  set Rr := redoLoop t.state.entries t.entryStore t.blobs ((idx + 1) - D.1)
    D.1 D.2.1 0 with hRdef
  clear_value L idx c0 D Rr
  have hc0e : c0 = t.state.cursor := by
    rw [hc0def]
    omega
  obtain ⟨hd1, hd2, hd3⟩ := undoLoop_chain t.state.entries t.entryStore
    t.blobs Wl hchain (c0 - (idx + 1)) c0 0 ws (by omega)
    (by rw [hc0e]; exact hws)
  rw [← hDdef] at hd1 hd2 hd3
  obtain ⟨hr1, hr2, hr3⟩ := redoLoop_chain t.state.entries t.entryStore
    t.blobs Wl hchain ((idx + 1) - D.1) D.1 0 D.2.1 (by omega)
    (by rw [hd1]; exact hd2)
  rw [← hRdef] at hr1 hr2 hr3
  have hfinal : D.1 +
      min ((idx + 1) - D.1) (t.state.entries.length - D.1) = idx + 1 := by
    omega
  refine ⟨rfl, ?_, ?_⟩
  · rw [hr1]
    exact hfinal
  · rw [← hfinal]
    exact hr2

theorem alookup_single {β : Type} (a : Pth) (v : β) (p : Pth) :
    alookup [(a, v)] p = if a = p then some v else none := by
  rw [alookup]
  by_cases hp : a = p
  · rw [if_pos hp, List.find?_cons_of_pos _ (by simpa using hp)]
    rfl
  · rw [if_neg hp, List.find?_cons_of_neg _ (by simpa using hp)]
    rfl

theorem lookupFile_single (a : Pth) (v : Bytes) (ds : List Pth) (p : Pth) :
    (Ws.mk [(a, v)] ds).lookupFile p = if a = p then some v else none := by
  rw [Ws.lookupFile]
  by_cases hp : a = p
  · rw [if_pos hp, List.find?_cons_of_pos _ (by simpa using hp)]
    rfl
  · rw [if_neg hp, List.find?_cons_of_neg _ (by simpa using hp)]
    rfl

/-- A benign one-file history pair used to witness the amended C4/C5
round-trip theorems: entry `e1` rewrites `/a` from bytes `[1]` to `[2]`. -/
def c45Wa : Ws := ⟨[(["a"], [1])], [[]]⟩

def c45Wb : Ws := ⟨[(["a"], [2])], [[]]⟩

def c45Entry : Entry :=
  ⟨"e1", computeFileChanges [((["a"] : Pth), ([1] : Bytes))]
      [(["a"], [2])] "e1" ++
    computeDirChanges [([] : Pth)] [[]]⟩

def c45Tm : Tm :=
  ⟨⟨1, [⟨"e1"⟩], 50, 200, 10⟩,
   [("e1", c45Entry)],
   [(blobPath "e1" true ["a"], [1]), (blobPath "e1" false ["a"], [2])]⟩

theorem goodWs_c45 (v : Bytes) : goodWs (Ws.mk [((["a"] : Pth), v)] [[]]) := by
  have hlook : ∀ p, (Ws.mk [((["a"] : Pth), v)] [[]]).lookupFile p ≠ none →
      (["a"] : Pth) = p := by
    intro p hsome
    by_contra hp
    rw [lookupFile_single, if_neg hp] at hsome
    exact hsome rfl
  refine ⟨?_, ?_, ?_, ⟨?_, ?_⟩, ?_⟩
  · intro d hd n hn
    have hd0 : d = [] := by simpa using hd
    subst hd0
    simp
  · intro p hsome
    have hpa := hlook p (by
      intro h0
      rw [h0] at hsome
      exact absurd hsome (by simp))
    subst hpa
    intro n hn
    have hn0 : n = 0 := by
      simp at hn
      omega
    subst hn0
    simp
  · intro p hsome
    have hpa := hlook p (by
      intro h0
      rw [h0] at hsome
      exact absurd hsome (by simp))
    subst hpa
    simp
  · intro p hsome
    have hpa := hlook p (by
      intro h0
      rw [h0] at hsome
      exact absurd hsome (by simp))
    subst hpa
    rfl
  · intro d hd
    have hd0 : d = [] := by simpa using hd
    subst hd0
    rfl
  · simp

theorem c45_links : entryLinks c45Tm.entryStore c45Tm.blobs "e1" c45Wa c45Wb := by
  refine ⟨⟨[(["a"], [1])], [(["a"], [2])], [[]], [[]]⟩, rfl, ⟨?_, ?_, ?_, ?_⟩,
    ?_, ?_, ?_, goodWs_c45 [1], goodWs_c45 [2]⟩
  · intro p hne
    by_cases hp : (["a"] : Pth) = p
    · subst hp
      exact ⟨rfl, rfl⟩
    · exfalso
      apply hne
      rw [alookup_single, alookup_single, if_neg hp, if_neg hp]
  · intro p _ hne
    by_cases hp : (["a"] : Pth) = p
    · subst hp
      intro h
      exact absurd h (by decide)
    · exfalso
      apply hne
      have h1 : c45Wa.lookupFile p = none := by
        show (Ws.mk [((["a"] : Pth), ([1] : Bytes))] [[]]).lookupFile p = none
        rw [lookupFile_single, if_neg hp]
      have h2 : c45Wb.lookupFile p = none := by
        show (Ws.mk [((["a"] : Pth), ([2] : Bytes))] [[]]).lookupFile p = none
        rw [lookupFile_single, if_neg hp]
      rw [h1, h2]
  · exact fun d => Iff.rfl
  · exact fun d => Iff.rfl
  · intro p v hne hv
    by_cases hp : (["a"] : Pth) = p
    · subst hp
      have hv2 : some ([1] : Bytes) = some v := hv
      have hv3 : ([1] : Bytes) = v := Option.some_inj.1 hv2
      subst hv3
      rfl
    · exfalso
      have h1 : c45Wa.lookupFile p = none := by
        show (Ws.mk [((["a"] : Pth), ([1] : Bytes))] [[]]).lookupFile p = none
        rw [lookupFile_single, if_neg hp]
      rw [h1] at hv
      exact absurd hv (by simp)
  · intro p v hne hv
    by_cases hp : (["a"] : Pth) = p
    · subst hp
      have hv2 : some ([2] : Bytes) = some v := hv
      have hv3 : ([2] : Bytes) = v := Option.some_inj.1 hv2
      subst hv3
      rfl
    · exfalso
      have h1 : c45Wb.lookupFile p = none := by
        show (Ws.mk [((["a"] : Pth), ([2] : Bytes))] [[]]).lookupFile p = none
        rw [lookupFile_single, if_neg hp]
      rw [h1] at hv
      exact absurd hv (by simp)
  · intro d _ _ hmis
    exact absurd Iff.rfl hmis

theorem c45_chain :
    chainAt c45Tm.entryStore c45Tm.blobs c45Tm.state.entries [c45Wa, c45Wb] := by
  refine ⟨rfl, ?_⟩
  intro i hi
  have hi0 : i = 0 := by
    have : i < 1 := hi
    omega
  subst hi0
  exact c45_links

theorem c4_round_trip_amended_witness :
    wsLike (timeRedo (timeUndo c45Tm c45Wb 1).1
      (timeUndo c45Tm c45Wb 1).2.1 1).2.1 c45Wb ∧
    (timeRedo (timeUndo c45Tm c45Wb 1).1
      (timeUndo c45Tm c45Wb 1).2.1 1).1.state.cursor =
      c45Tm.state.entries.length :=
  c4_round_trip_amended c45Tm c45Wb 1 [c45Wa, c45Wb] c45_chain rfl
    ⟨fun p => rfl, fun d => Iff.rfl⟩

theorem c5_restore_amended_witness :
    (timeRestore c45Tm c45Wb "e1").2.2 = true ∧
    (timeRestore c45Tm c45Wb "e1").1.state.cursor =
      c45Tm.state.entries.findIdx (fun e => e.id = "e1") + 1 ∧
    wsLike (timeRestore c45Tm c45Wb "e1").2.1
      ([c45Wa, c45Wb].getD
        (c45Tm.state.entries.findIdx (fun e => e.id = "e1") + 1) Ws.empty) :=
  c5_restore_amended c45Tm c45Wb "e1" [c45Wa, c45Wb] c45_chain
    (by decide) ⟨fun p => rfl, fun d => Iff.rfl⟩ (by decide)
